import Mathlib

/-!
# Bounded-concurrency batch fetcher (`services.FetchAllUsersInfo`)

A shallow embedding of `src/services/user_service.go` as an interleaving
transition system: one main thread running `FetchAllUsersInfo` and one thread
per launched `FetchAdditionalInfo` goroutine.  Channels are modelled by their
buffer contents, the wait group by its counter, blocking operations by a step
that is not enabled, and Go run-time panics by a flag.

The later sections embed `utils.ProcessAndWriteToCSV` and the handlers of
`src/api/handlers.go` as functions of their inputs and of the outcome of the
library calls they make.
-/

namespace UserService

/-! ## Data model -/

/-- Go struct `models.User` (src/models/user.go). -/
structure User where
  ID : Int
  Name : String
  Age : Int
  Email : String
deriving DecidableEq, Repr

/-- Constant `MaxConcurrentFetches` (user_service.go, line 13). -/
def MaxConcurrentFetches : Nat := 5

/-- Constant `http.StatusOK`. -/
def StatusOK : Int := 200

/-- What `http.Get` hands back to a worker: either a transport error or a
response with a status code and a body. -/
inductive Response where
  | transportError
  | http (statusCode : Int) (body : String)
deriving DecidableEq, Repr

/-- The three failure exits of `FetchAdditionalInfo` (lines 37, 44, 51). -/
inductive Failure where
  | transport
  | status (code : Int)
  | decode
deriving DecidableEq, Repr

/-- Result of the thread-local part of a worker. -/
inductive FetchResult where
  | failed (f : Failure)
  | ok (u : User)
deriving DecidableEq, Repr

/-- The environment of one call: the input slice, the Record Source (the answer
of the external service to the lookup issued for input position `p` and
identifier `id`), and the JSON decoder of the standard library, taken as a
parameter. -/
structure Config where
  userIDs : List Int
  source : Nat → Int → Response
  decode : String → Option User

/-- Lines 36-54 of `FetchAdditionalInfo`: the error check on `http.Get`, the
status check against `http.StatusOK`, and the JSON decoding. -/
def fetchOutcome (decode : String → Option User) : Response → FetchResult
  | .transportError => .failed .transport
  | .http code body =>
    if code ≠ StatusOK then .failed (.status code)
    else
      match decode body with
      | none => .failed .decode
      | some u => .ok u

/-- The record a lookup yields, if any. -/
def FetchResult.record : FetchResult → Option User
  | .failed _ => none
  | .ok u => some u

/-- The record obtained by the lookup at input position `p` for `id`. -/
def lookupRecord (cfg : Config) (p : Nat) (id : Int) : Option User :=
  (fetchOutcome cfg.decode (cfg.source p id)).record

/-! ## Observable events -/

/-- Operations recorded in the trace of a call, in the order they happen. -/
inductive Event where
  | add (pos : Nat)
  | acquire (pos : Nat)
  | launch (pos : Nat) (id : Int)
  | lookup (pos : Nat) (id : Int)
  | diag (pos : Nat) (id : Int) (f : Failure)
  | send (pos : Nat) (u : User)
  | release (pos : Nat)
  | done (pos : Nat)
  | close
  | sendUsersToCSV (users : List User)
deriving DecidableEq, Repr

/-! ## Threads -/

/-- Program counter of a `FetchAdditionalInfo` goroutine. -/
inductive WorkerPC where
  /-- launched, `http.Get` (line 36) not yet evaluated -/
  | fetching
  /-- decoded a user, about to run `results <- user` (line 57) -/
  | sending (u : User)
  /-- body left, about to run the deferred `<-semaphore` (line 33) -/
  | releasing
  /-- about to run the deferred `wg.Done()` (line 32) -/
  | finishing
  | exited
deriving DecidableEq, Repr

/-- A launched goroutine: the input position it was launched for, its
`userID` argument and its program counter. -/
structure Worker where
  pos : Nat
  id : Int
  pc : WorkerPC
deriving DecidableEq, Repr

/-- Program counter of the thread running `FetchAllUsersInfo`. -/
inductive MainPC where
  /-- head of the `range` loop at position `i` (line 68) -/
  | loop (i : Nat)
  /-- about to run `semaphore <- struct{}{}` (line 70) -/
  | acquire (i : Nat) (id : Int)
  /-- about to run `go FetchAdditionalInfo(...)` (line 71) -/
  | spawn (i : Nat) (id : Int)
  /-- at `wg.Wait()` (line 74) -/
  | waiting
  /-- about to run `close(results)` (line 75) -/
  | closing
  /-- in the `range results` loop (lines 79-81) -/
  | collecting
  /-- about to call `utils.SendUsersToCSV(users)` (line 84) -/
  | exporting
  /-- `return users` executed (line 86) -/
  | returned
deriving DecidableEq, Repr

/-- State of one call of `FetchAllUsersInfo`.  `semaphore` is the number of
tokens in the buffered channel of line 65, `results` the buffer of the channel
of line 64 (capacity `len(userIDs)`), `wg` the wait-group counter. -/
structure State where
  pc : MainPC
  wg : Nat
  semaphore : Nat
  results : List User
  closed : Bool
  workers : List Worker
  users : List User
  trace : List Event
  panicked : Bool
deriving DecidableEq, Repr

/-- Lines 63-65: fresh wait group, fresh result channel, fresh semaphore. -/
def initState : State :=
  { pc := .loop 0, wg := 0, semaphore := 0, results := [], closed := false,
    workers := [], users := [], trace := [], panicked := false }

/-- One step of the thread running `FetchAllUsersInfo`; `none` when the
thread is blocked or has returned. -/
def stepMain (cfg : Config) (s : State) : Option State :=
  match s.pc with
  | .loop i =>
    match cfg.userIDs[i]? with
    | some id => some { s with pc := .acquire i id, wg := s.wg + 1, trace := s.trace ++ [.add i] }
    | none => some { s with pc := .waiting }
  | .acquire i id =>
    if s.semaphore < MaxConcurrentFetches then
      some { s with pc := .spawn i id, semaphore := s.semaphore + 1,
                    trace := s.trace ++ [.acquire i] }
    else none
  | .spawn i id =>
    some { s with pc := .loop (i + 1),
                  workers := s.workers ++ [{ pos := i, id := id, pc := .fetching }],
                  trace := s.trace ++ [.launch i id] }
  | .waiting => if s.wg = 0 then some { s with pc := .closing } else none
  | .closing =>
    if s.closed then some { s with panicked := true }
    else some { s with pc := .collecting, closed := true, trace := s.trace ++ [.close] }
  | .collecting =>
    match s.results with
    | u :: rest => some { s with results := rest, users := s.users ++ [u] }
    | [] => if s.closed then some { s with pc := .exporting } else none
  | .exporting =>
    some { s with pc := .returned, trace := s.trace ++ [.sendUsersToCSV s.users] }
  | .returned => none

/-- One step of the goroutine at index `p` of the worker list; `none` when it
does not exist, is blocked or has exited. -/
def stepWorker (cfg : Config) (s : State) (p : Nat) : Option State :=
  match s.workers[p]? with
  | none => none
  | some w =>
    match w.pc with
    | .fetching =>
      match fetchOutcome cfg.decode (cfg.source w.pos w.id) with
      | .ok u =>
        some { s with workers := s.workers.set p { w with pc := .sending u },
                      trace := s.trace ++ [.lookup w.pos w.id] }
      | .failed f =>
        some { s with workers := s.workers.set p { w with pc := .releasing },
                      trace := s.trace ++ [.lookup w.pos w.id, .diag w.pos w.id f] }
    | .sending u =>
      if s.closed then some { s with panicked := true }
      else if s.results.length < cfg.userIDs.length then
        some { s with results := s.results ++ [u],
                      workers := s.workers.set p { w with pc := .releasing },
                      trace := s.trace ++ [.send w.pos u] }
      else none
    | .releasing =>
      if 0 < s.semaphore then
        some { s with semaphore := s.semaphore - 1,
                      workers := s.workers.set p { w with pc := .finishing },
                      trace := s.trace ++ [.release w.pos] }
      else none
    | .finishing =>
      if s.wg = 0 then some { s with panicked := true }
      else
        some { s with wg := s.wg - 1,
                      workers := s.workers.set p { w with pc := .exited },
                      trace := s.trace ++ [.done w.pos] }
    | .exited => none

/-- Scheduler choices. -/
inductive Action where
  | main
  | worker (p : Nat)
deriving DecidableEq, Repr

/-- One step of the whole call under the scheduler choice `a`.  A panicked
program takes no further step. -/
def step (cfg : Config) (s : State) (a : Action) : Option State :=
  if s.panicked then none
  else
    match a with
    | .main => stepMain cfg s
    | .worker p => stepWorker cfg s p

/-- Run a schedule from a state; `none` if some chosen step is not enabled. -/
def execFrom (cfg : Config) : State → List Action → Option State
  | s, [] => some s
  | s, a :: rest =>
    match step cfg s a with
    | none => none
    | some s' => execFrom cfg s' rest

/-- Run a schedule from the initial state of a call. -/
def exec (cfg : Config) (sched : List Action) : Option State :=
  execFrom cfg initState sched

/-- States a call of `FetchAllUsersInfo` can be in, under any interleaving. -/
inductive Reachable (cfg : Config) : State → Prop where
  | init : Reachable cfg initState
  | step {s s' : State} (a : Action) : Reachable cfg s → step cfg s a = some s' →
      Reachable cfg s'

/-! ## Derived quantities -/

/-- A worker that has been launched and has not yet released its semaphore
slot. -/
def Worker.holdsSlot (w : Worker) : Bool :=
  match w.pc with
  | .fetching => true
  | .sending _ => true
  | .releasing => true
  | .finishing => false
  | .exited => false

/-- A worker that has not yet called `wg.Done()`. -/
def Worker.running (w : Worker) : Bool :=
  match w.pc with
  | .exited => false
  | _ => true

/-- The record a worker has put into the result channel so far. -/
def Worker.delivered (cfg : Config) (w : Worker) : Option User :=
  match w.pc with
  | .fetching => none
  | .sending _ => none
  | _ => lookupRecord cfg w.pos w.id

/-- Number of in-flight workers. -/
def inflight (s : State) : Nat := s.workers.countP Worker.holdsSlot

/-- Identifiers for which a goroutine has been launched, in launch order. -/
def launched (s : State) : List Int := s.workers.map Worker.id

/-- The value returned by the call once the main thread has returned. -/
def returnValue (s : State) : Option (List User) :=
  match s.pc with
  | .returned => some s.users
  | _ => none

/-- Records of the successful lookups, in input order. -/
def successes (cfg : Config) : List User :=
  (cfg.userIDs.enum).filterMap (fun q => lookupRecord cfg q.1 q.2)

/-! ## The inductive invariant -/

/-- Wait-group units added by the main thread for a goroutine not yet launched. -/
def MainPC.pendingAdd : MainPC → Nat
  | .acquire _ _ => 1
  | .spawn _ _ => 1
  | _ => 0

/-- Semaphore tokens sent by the main thread for a goroutine not yet launched. -/
def MainPC.pendingSlot : MainPC → Nat
  | .spawn _ _ => 1
  | _ => 0

/-- Input position and identifier of a worker. -/
def Worker.key (w : Worker) : Nat × Int := (w.pos, w.id)

/-- What the program counter of the main thread says about the rest of the state. -/
def pcInv (cfg : Config) (s : State) : Prop :=
  match s.pc with
  | .loop i => s.workers.length = i ∧ i ≤ cfg.userIDs.length ∧ s.closed = false ∧ s.users = []
  | .acquire i id =>
    s.workers.length = i ∧ cfg.userIDs[i]? = some id ∧ s.closed = false ∧ s.users = []
  | .spawn i id =>
    s.workers.length = i ∧ cfg.userIDs[i]? = some id ∧ s.closed = false ∧ s.users = []
  | .waiting => s.workers.length = cfg.userIDs.length ∧ s.closed = false ∧ s.users = []
  | .closing =>
    s.workers.length = cfg.userIDs.length ∧ s.closed = false ∧ s.users = [] ∧
      s.workers.countP Worker.running = 0
  | .collecting =>
    s.workers.length = cfg.userIDs.length ∧ s.closed = true ∧
      s.workers.countP Worker.running = 0
  | .exporting =>
    s.workers.length = cfg.userIDs.length ∧ s.closed = true ∧
      s.workers.countP Worker.running = 0 ∧ s.results = []
  | .returned =>
    s.workers.length = cfg.userIDs.length ∧ s.closed = true ∧
      s.workers.countP Worker.running = 0 ∧ s.results = []

/-- Invariant of every reachable state of a call. -/
structure Inv (cfg : Config) (s : State) : Prop where
  noPanic : s.panicked = false
  wgEq : s.wg = s.workers.countP Worker.running + s.pc.pendingAdd
  semEq : s.semaphore = s.workers.countP Worker.holdsSlot + s.pc.pendingSlot
  semLe : s.semaphore ≤ MaxConcurrentFetches
  shape : s.workers.map Worker.key = cfg.userIDs.enum.take s.workers.length
  sendingOk : ∀ w ∈ s.workers, ∀ u, w.pc = .sending u → lookupRecord cfg w.pos w.id = some u
  collected : (s.users ++ s.results).Perm (s.workers.filterMap (Worker.delivered cfg))
  atPc : pcInv cfg s

/-! ## Termination measure -/

/-- A worker that has not yet sent on the result channel and may still do so. -/
def Worker.beforeSend (w : Worker) : Bool :=
  match w.pc with
  | .fetching => true
  | .sending _ => true
  | _ => false

/-- Steps a worker still has to take, at most. -/
def Worker.fuel (w : Worker) : Nat :=
  match w.pc with
  | .fetching => 4
  | .sending _ => 3
  | .releasing => 2
  | .finishing => 1
  | .exited => 0

/-- Steps the main thread and the workers it has yet to launch still have to
take, at most, for an input of length `n`. -/
def mainFuel (n : Nat) (s : State) : Nat :=
  match s.pc with
  | .loop i => 7 * (n - i) + (n + 5)
  | .acquire i _ => 7 * (n - i) - 1 + (n + 5)
  | .spawn i _ => 7 * (n - i) - 2 + (n + 5)
  | .waiting => n + 4
  | .closing => n + 3
  | .collecting => s.results.length + 2
  | .exporting => 1
  | .returned => 0

/-- Upper bound on the number of steps left in any execution from `s`. -/
def fuel (cfg : Config) (s : State) : Nat :=
  mainFuel cfg.userIDs.length s + (s.workers.map Worker.fuel).sum

/-! ## Per-thread view of the trace -/

/-- The worker (by input position) that performed an event; `none` for the
events of the main thread. -/
def Event.owner : Event → Option Nat
  | .lookup p _ => some p
  | .diag p _ _ => some p
  | .send p _ => some p
  | .release p => some p
  | .done p => some p
  | _ => none

/-- Events of the trace performed by the worker of position `p`. -/
def ownedBy (p : Nat) (tr : List Event) : List Event :=
  tr.filter (fun e => decide (e.owner = some p))

/-- Events of the trace performed by the main thread. -/
def mainEvents (tr : List Event) : List Event :=
  tr.filter (fun e => decide (e.owner = none))

/-- Events of the body of `FetchAdditionalInfo` (lines 36-57) for the lookup
at position `p` of identifier `id`. -/
def bodyEvents (cfg : Config) (p : Nat) (id : Int) : List Event :=
  match fetchOutcome cfg.decode (cfg.source p id) with
  | .ok u => [.lookup p id, .send p u]
  | .failed f => [.lookup p id, .diag p id f]

/-- Events a worker has performed when it stands at its program counter. -/
def Worker.events (cfg : Config) (w : Worker) : List Event :=
  match w.pc with
  | .fetching => []
  | .sending _ => [.lookup w.pos w.id]
  | .releasing => bodyEvents cfg w.pos w.id
  | .finishing => bodyEvents cfg w.pos w.id ++ [.release w.pos]
  | .exited => bodyEvents cfg w.pos w.id ++ [.release w.pos, .done w.pos]

/-- Events of one complete iteration of the submission loop (lines 69-71). -/
def submitEvents (q : Nat × Int) : List Event :=
  [.add q.1, .acquire q.1, .launch q.1 q.2]

/-- Events the main thread has performed when it stands at its program
counter. -/
def mainExpected (cfg : Config) (s : State) : List Event :=
  (cfg.userIDs.enum.take s.workers.length).flatMap submitEvents ++
    match s.pc with
    | .loop _ => []
    | .acquire i _ => [.add i]
    | .spawn i _ => [.add i, .acquire i]
    | .waiting => []
    | .closing => []
    | .collecting => [.close]
    | .exporting => [.close]
    | .returned => [.close, .sendUsersToCSV s.users]

/-- Sends on the semaphore channel. -/
def Event.isAcquire : Event → Bool
  | .acquire _ => true
  | _ => false

/-- Receives from the semaphore channel. -/
def Event.isRelease : Event → Bool
  | .release _ => true
  | _ => false

/-- Position and identifier of a lookup event. -/
def Event.lookupKey : Event → Option (Nat × Int)
  | .lookup p id => some (p, id)
  | _ => none

/-- Calls of the CSV export sink. -/
def Event.isExport : Event → Bool
  | .sendUsersToCSV _ => true
  | _ => false

/-- A worker whose `http.Get` has been issued. -/
def Worker.started (w : Worker) : Bool :=
  match w.pc with
  | .fetching => false
  | _ => true

/-- Lookups issued so far, as (position, identifier) pairs in trace order. -/
def lookups (s : State) : List (Nat × Int) := s.trace.filterMap Event.lookupKey

/-- Invariant tying the trace to the program counters. -/
structure TraceInv (cfg : Config) (s : State) : Prop where
  own : ∀ q, ownedBy q s.trace =
    match s.workers[q]? with
    | some w => w.events cfg
    | none => []
  mainT : mainEvents s.trace = mainExpected cfg s
  balance : s.trace.countP Event.isAcquire = s.trace.countP Event.isRelease + s.semaphore
  issued : (lookups s).Perm ((s.workers.filter Worker.started).map Worker.key)

/-! ## Queries on traces and results -/

/-- Records the worker of position `p` has sent on the result channel. -/
def sentBy (p : Nat) (tr : List Event) : List User :=
  tr.filterMap (fun e =>
    match e with
    | .send q u => if q = p then some u else none
    | _ => none)

/-- The records a worker still has to put on the result channel before it
returns: the record of its lookup while it has not passed line 57. -/
def Worker.pendingSend (cfg : Config) (w : Worker) : List User :=
  match w.pc with
  | .fetching => (lookupRecord cfg w.pos w.id).toList
  | .sending u => [u]
  | _ => []

/-- The returned slice sorted by `ID` (the comparison of the test's `sort.Slice`). -/
def sortByID (us : List User) : List User :=
  us.insertionSort (fun a b => a.ID ≤ b.ID)

/-- The input identifiers in increasing order. -/
def sortedIDs (ids : List Int) : List Int :=
  ids.insertionSort (fun a b => a ≤ b)

/-! ## Two concurrent calls -/

/-- One step of two calls of `FetchAllUsersInfo` running concurrently.  Each
call runs lines 63-65 itself, so each has its own wait group, result channel
and semaphore: the two states share nothing. -/
def step2 (cfgA cfgB : Config) (s : State × State) (a : Action ⊕ Action) :
    Option (State × State) :=
  match a with
  | .inl x => (step cfgA s.1 x).map (fun t => (t, s.2))
  | .inr y => (step cfgB s.2 y).map (fun t => (s.1, t))

/-- Run a schedule of two concurrent calls. -/
def execFrom2 (cfgA cfgB : Config) : State × State → List (Action ⊕ Action) →
    Option (State × State)
  | s, [] => some s
  | s, a :: rest =>
    match step2 cfgA cfgB s a with
    | none => none
    | some s' => execFrom2 cfgA cfgB s' rest

/-- States two concurrent calls can be in, under any interleaving. -/
inductive Reachable2 (cfgA cfgB : Config) : State × State → Prop where
  | init : Reachable2 cfgA cfgB (initState, initState)
  | step {s s' : State × State} (a : Action ⊕ Action) : Reachable2 cfgA cfgB s →
      step2 cfgA cfgB s a = some s' → Reachable2 cfgA cfgB s'

/-! ## Scenarios -/

/-- The record the mock server of the tests builds for an identifier. -/
def userOf (id : Int) : User :=
  { ID := id, Name := "User", Age := 20 + id, Email := "" }

/-- A decoder for the scenarios: bodies `1`, `2`, `3` decode to the matching
record, everything else is malformed. -/
def scenarioDecode (body : String) : Option User :=
  if body = "1" then some (userOf 1)
  else if body = "2" then some (userOf 2)
  else if body = "3" then some (userOf 3)
  else none

/-- Six identifiers against a source that answers 500 to everything. -/
def sixCfg : Config :=
  { userIDs := [1, 2, 3, 4, 5, 6], source := fun _ _ => .http 500 "", decode := scenarioDecode }

/-- Five goroutines launched, none has run yet, the main thread stands at the
sixth acquire. -/
def sixSched : List Action := List.replicate 16 .main

/-- Three identifiers; the lookup of `2` gets a 500, the others succeed. -/
def mixedCfg : Config :=
  { userIDs := [1, 2, 3],
    source := fun _ id =>
      if id = 1 then .http 200 "1" else if id = 3 then .http 200 "3" else .http 500 "",
    decode := scenarioDecode }

/-- A complete run of `mixedCfg` in which the third worker finishes first. -/
def mixedSched : List Action :=
  List.replicate 10 .main ++
    [.worker 2, .worker 2, .worker 2, .worker 2, .worker 1, .worker 1, .worker 1,
     .worker 0, .worker 0, .worker 0, .worker 0] ++
    List.replicate 6 .main

/-- Three identifiers against a source that answers 500 to everything (the
scenario of `TestFetchAllUsersInfo_ErrorHandling`). -/
def failCfg : Config :=
  { userIDs := [1, 2, 3], source := fun _ _ => .http 500 "", decode := scenarioDecode }

/-- A complete run of `failCfg`. -/
def failSched : List Action :=
  List.replicate 10 .main ++
    [.worker 0, .worker 0, .worker 0, .worker 1, .worker 1, .worker 1,
     .worker 2, .worker 2, .worker 2] ++
    List.replicate 4 .main

/-- A source that answers the lookup of `1` with the record of `2` and the
lookup of `2` with the record of `1`. -/
def swapCfg : Config :=
  { userIDs := [1, 2],
    source := fun _ id => if id = 1 then .http 200 "2" else .http 200 "1",
    decode := scenarioDecode }

/-- A complete run of `swapCfg`. -/
def swapSched : List Action :=
  List.replicate 7 .main ++
    [.worker 0, .worker 0, .worker 0, .worker 0, .worker 1, .worker 1, .worker 1, .worker 1] ++
    List.replicate 6 .main

/-- One identifier, `1`, against a source that answers with the record of `2`. -/
def strayCfg : Config :=
  { userIDs := [1], source := fun _ _ => .http 200 "2", decode := scenarioDecode }

/-- A complete run of `strayCfg`. -/
def straySched : List Action :=
  List.replicate 4 .main ++ [.worker 0, .worker 0, .worker 0, .worker 0] ++
    List.replicate 5 .main

/-- The empty input. -/
def emptyCfg : Config :=
  { userIDs := [], source := fun _ _ => .transportError, decode := scenarioDecode }

/-- The only complete run on the empty input. -/
def emptySched : List Action := List.replicate 5 .main

/-- Two concurrent calls on three identifiers each: both submission loops run
to the end before any goroutine runs. -/
def pairSched : List (Action ⊕ Action) :=
  List.replicate 9 (.inl .main) ++ List.replicate 9 (.inr .main)

/-! ## Decimal strings (`strconv`) and `strings.Split`

Go standard-library functions the repository calls, modelled from their
documented behaviour on ASCII strings. -/

/-- Smallest value of a 64-bit Go `int`. -/
def minInt : Int := -9223372036854775808

/-- Largest value of a 64-bit Go `int`. -/
def maxInt : Int := 9223372036854775807

/-- The character of the decimal digit `d`. -/
def digitChar (d : Nat) : Char := Char.ofNat (48 + d)

/-- The value of a decimal digit character; `none` for any other character. -/
def digitVal (c : Char) : Option Nat :=
  if 48 ≤ c.toNat ∧ c.toNat ≤ 57 then some (c.toNat - 48) else none

/-- Decimal digits of `n`, most significant first, in front of `acc`; `fuel`
bounds the number of digits. -/
def natDigits : Nat → Nat → List Char → List Char
  | 0, _, acc => acc
  | fuel + 1, n, acc =>
    if n < 10 then digitChar n :: acc
    else natDigits fuel (n / 10) (digitChar (n % 10) :: acc)

/-- Go `strconv.Itoa`: the decimal rendering of an integer, with a leading
minus sign for negative numbers. -/
def Itoa (n : Int) : String :=
  if n < 0 then String.mk ('-' :: natDigits (n.natAbs + 1) n.natAbs [])
  else String.mk (natDigits (n.natAbs + 1) n.natAbs [])

/-- The number written by a string of decimal digits, continuing from `acc`;
`none` if some character is not a digit. -/
def parseDigits (acc : Nat) : List Char → Option Nat
  | [] => some acc
  | c :: cs =>
    match digitVal c with
    | none => none
    | some d => parseDigits (10 * acc + d) cs

/-- At least one decimal digit and nothing else. -/
def parseMagnitude (ds : List Char) : Option Nat :=
  match ds with
  | [] => none
  | _ :: _ => parseDigits 0 ds

/-- The range check of `strconv.Atoi`. -/
def inIntRange (n : Int) : Option Int :=
  if minInt ≤ n ∧ n ≤ maxInt then some n else none

/-- Go `strconv.Atoi`: an optional sign followed by one or more decimal
digits, the value within the range of `int`; `none` stands for a non-nil
error. -/
def Atoi (s : String) : Option Int :=
  match s.data with
  | [] => none
  | c :: r =>
    if c = '-' then (parseMagnitude r).bind (fun v => inIntRange (-(v : Int)))
    else if c = '+' then (parseMagnitude r).bind (fun v => inIntRange (v : Int))
    else (parseMagnitude (c :: r)).bind (fun v => inIntRange (v : Int))

/-- The pieces of a character list between the occurrences of `sep`. -/
def splitChars (sep : Char) : List Char → List (List Char)
  | [] => [[]]
  | c :: cs =>
    if c = sep then [] :: splitChars sep cs
    else
      match splitChars sep cs with
      | [] => [[c]]
      | p :: ps => (c :: p) :: ps

/-- Go `strings.Split(s, sep)` for a one-character separator. -/
def Split (s : String) (sep : Char) : List String :=
  (splitChars sep s.data).map String.mk

/-! ## CSV export (`utils.ProcessAndWriteToCSV`) -/

/-- Outcome of the operating-system and library calls of
`ProcessAndWriteToCSV`, taken as parameters: the error of `os.Create` for a
file name; the error of the `k`-th call of `writer.Write` (the header is call
0); the value of `writer.Error()` at line 54; the error of the deferred
`writer.Flush()` of line 28, which the code does not look at; the number of
accepted records that are in the file when the writer has failed (those the
buffer had passed on before); and the title caser
`cases.Title(language.English).String`. -/
structure CsvEnv where
  createErr : String → Option String
  writeErr : Nat → Option String
  finalErr : Option String
  flushErr : Option String
  persisted : Nat
  title : String → String

/-- What a call of `ProcessAndWriteToCSV` has done when it returns: the
records accepted by `writer.Write`, in order; the records in the file once the
deferred `writer.Flush()` and `file.Close()` have run; the number of users
received from the channel; the returned error (`none` for `nil`). -/
structure CsvOutcome where
  rows : List (List String)
  file : List (List String)
  received : Nat
  err : Option String
deriving DecidableEq, Repr

/-- State of the `range userChan` loop when it ends: the records accepted so
far, the number of users received, and the error of the `writer.Write` that
ended it early, if any. -/
structure Written where
  rows : List (List String)
  received : Nat
  writeErr : Option String
deriving DecidableEq, Repr

/-- The header record (utils.go, line 34). -/
def csvHeader : List String := ["ID", "Name", "Age", "Email"]

/-- The record built for a user (utils.go, lines 41-46). -/
def csvRecord (title : String → String) (u : User) : List String :=
  [Itoa u.ID, title u.Name, Itoa u.Age, u.Email]

/-- The `range userChan` loop (utils.go, lines 39-51) on the users still to be
received; `k` is the number of calls of `writer.Write` made so far. -/
def writeLoop (env : CsvEnv) : List User → Nat → List (List String) → Nat → Written
  | [], _, rows, got => { rows := rows, received := got, writeErr := none }
  | u :: rest, k, rows, got =>
    if u.Age ≥ 18 then
      match env.writeErr k with
      | some e => { rows := rows, received := got + 1, writeErr := some e }
      | none => writeLoop env rest (k + 1) (rows ++ [csvRecord env.title u]) (got + 1)
    else writeLoop env rest k rows (got + 1)

/-- The deferred `writer.Flush()` and `file.Close()` (utils.go, lines 28 and
24): the records in the file afterwards.  A writer that has failed before, or
whose flush fails, leaves only what it had passed on earlier. -/
def flushAtExit (env : CsvEnv) (rows : List (List String)) (failed : Bool) :
    List (List String) :=
  if failed = false ∧ env.flushErr = none then rows else rows.take env.persisted

/-- `utils.ProcessAndWriteToCSV(userChan, filename)`; the channel is given by
the finite sequence of users sent on it before it is closed.  The returned
error is fixed before the deferred flush runs. -/
def ProcessAndWriteToCSV (env : CsvEnv) (userChan : List User) (filename : String) :
    CsvOutcome :=
  match env.createErr filename with
  | some e => { rows := [], file := [], received := 0, err := some e }
  | none =>
    match env.writeErr 0 with
    | some e => { rows := [], file := flushAtExit env [] true, received := 0, err := some e }
    | none =>
      let w := writeLoop env userChan 1 [csvHeader] 0
      match w.writeErr with
      | some e =>
        { rows := w.rows, file := flushAtExit env w.rows true, received := w.received,
          err := some e }
      | none =>
        match env.finalErr with
        | some e =>
          { rows := w.rows, file := flushAtExit env w.rows true, received := w.received,
            err := some e }
        | none =>
          { rows := w.rows, file := flushAtExit env w.rows false, received := w.received,
            err := none }

/-- The file content the export is meant to produce, in the words of the
claim: the header row `ID, Name, Age, Email`, then one row per user with
`Age >= 18`, in the order received, each row being the decimal `ID`, the
title-cased `Name`, the decimal `Age` and the `Email`. -/
def expectedRows (title : String → String) (users : List User) : List (List String) :=
  ["ID", "Name", "Age", "Email"] ::
    (users.filter (fun u => decide (u.Age ≥ 18))).map
      (fun u => [Itoa u.ID, title u.Name, Itoa u.Age, u.Email])

/-- Title-casing of a character list: the first letter of every run of
letters in upper case, the other letters in lower case; `inWord` tells whether
the previous character was a letter. -/
def titleChars : Bool → List Char → List Char
  | _, [] => []
  | inWord, c :: cs =>
    if c.isAlpha then (if inWord then c.toLower else c.toUpper) :: titleChars true cs
    else c :: titleChars false cs

/-- The title caser `cases.Title(language.English).String` of
`golang.org/x/text`, modelled from its documented behaviour on names made of
ASCII letters and blanks. -/
def titleCase (s : String) : String := String.mk (titleChars false s.data)

/-! ## CRUD handlers (`src/api/handlers.go`) -/

/-- Body written to the `http.ResponseWriter`. -/
inductive ResponseBody where
  | empty
  | text (msg : String)
  | user (u : User)
deriving DecidableEq, Repr

/-- Status code and body written to the `http.ResponseWriter`. -/
structure HttpResponse where
  status : Nat
  body : ResponseBody
deriving DecidableEq, Repr

/-- Result of `extractUserID`: the two returned values and what it wrote to
the response writer, if anything. -/
structure Extracted where
  id : Int
  ok : Bool
  written : Option HttpResponse
deriving DecidableEq, Repr

/-- `extractUserID(r, w)` (handlers.go, lines 140-154) on `r.URL.Path`. -/
def extractUserID (path : String) : Extracted :=
  let parts := Split path '/'
  if parts.length < 3 then
    { id := 0, ok := false, written := some { status := 400, body := .text "Invalid URL" } }
  else
    match parts[2]? with
    | none =>
      { id := 0, ok := false, written := some { status := 400, body := .text "Invalid URL" } }
    | some part =>
      match Atoi part with
      | none =>
        { id := 0, ok := false,
          written := some { status := 400, body := .text "Invalid user ID" } }
      | some id => { id := id, ok := true, written := none }

/-- Go `int` arithmetic on 64 bits: the two's complement value of an integer
(`maxInt + 1` wraps to `minInt`). -/
def wrapInt (n : Int) : Int := (n - minInt) % 18446744073709551616 + minInt

/-- The package variables `users` and `nextID` (handlers.go, lines 14-18);
`nextID` is a Go `int`. -/
structure Store where
  users : Int → Option User
  nextID : Int

/-- The store at program start: empty map, `nextID = 1`. -/
def initStore : Store := { users := fun _ => none, nextID := 1 }

/-- What a handler leaves behind: the store, the content of the response
writer, and whether it called `utils.SendUsersToCSV(users)`. -/
structure HandlerResult where
  store : Store
  response : Option HttpResponse
  exported : Bool

/-- `CreateUser` (handlers.go, lines 22-39); `decode` is the JSON decoding of
the request body into a `models.User`, with its error message. -/
def CreateUser (decode : String → Except String User) (s : Store) (body : String) :
    HandlerResult :=
  match decode body with
  | .error e =>
    { store := s, response := some { status := 400, body := .text e }, exported := false }
  | .ok user =>
    let user := { user with ID := s.nextID }
    { store := { users := Function.update s.users s.nextID (some user),
                 nextID := wrapInt (s.nextID + 1) },
      response := some { status := 201, body := .user user },
      exported := true }

/-- `UpdateUser` (handlers.go, lines 82-113). -/
def UpdateUser (decode : String → Except String User) (s : Store) (path body : String) :
    HandlerResult :=
  let e := extractUserID path
  if e.ok = false then { store := s, response := e.written, exported := false }
  else
    match decode body with
    | .error msg =>
      { store := s, response := some { status := 400, body := .text msg }, exported := false }
    | .ok updatedUser =>
      match s.users e.id with
      | none =>
        { store := s, response := some { status := 404, body := .text "User not found" },
          exported := false }
      | some user =>
        let user :=
          { user with Name := updatedUser.Name, Age := updatedUser.Age,
                      Email := updatedUser.Email }
        { store := { s with users := Function.update s.users e.id (some user) },
          response := some { status := 200, body := .user user },
          exported := true }

/-- `DeleteUser` (handlers.go, lines 117-136). -/
def DeleteUser (s : Store) (path : String) : HandlerResult :=
  let e := extractUserID path
  if e.ok = false then { store := s, response := e.written, exported := false }
  else
    match s.users e.id with
    | none =>
      { store := s, response := some { status := 404, body := .text "User not found" },
        exported := false }
    | some _ =>
      { store := { s with users := Function.update s.users e.id none },
        response := some { status := 204, body := .empty },
        exported := true }

/-- A call of one of the three mutating handlers. -/
inductive Request where
  | create (body : String)
  | update (path body : String)
  | delete (path : String)
deriving DecidableEq, Repr

/-- Serve one request. -/
def handle (decode : String → Except String User) (s : Store) : Request → HandlerResult
  | .create body => CreateUser decode s body
  | .update path body => UpdateUser decode s path body
  | .delete path => DeleteUser s path

/-- The store after serving a sequence of requests one after the other. -/
def serveAll (decode : String → Except String User) : Store → List Request → Store
  | s, [] => s
  | s, r :: rs => serveAll decode (handle decode s r).store rs

/-- The identifier a request was answered with, when it is a `CreateUser`
answered 201. -/
def assignedID (r : Request) (h : HandlerResult) : Option Int :=
  match r with
  | .create _ =>
    match h.response with
    | some resp =>
      match resp.body with
      | .user u => if resp.status = 201 then some u.ID else none
      | _ => none
    | none => none
  | _ => none

/-- The identifiers assigned by the `CreateUser` calls of a sequence of
requests, in the order of the calls. -/
def assignedIDs (decode : String → Except String User) : Store → List Request → List Int
  | _, [] => []
  | s, r :: rs =>
    match assignedID r (handle decode s r) with
    | some id => id :: assignedIDs decode (handle decode s r).store rs
    | none => assignedIDs decode (handle decode s r).store rs

/-! ## Scenarios for the export and the handlers -/

/-- An environment in which every file operation succeeds. -/
def okEnv : CsvEnv :=
  { createErr := fun _ => none, writeErr := fun _ => none, finalErr := none,
    flushErr := none, persisted := 0, title := titleCase }

/-- The environment of a full device: the file is created and the buffered
writer accepts every record, but the deferred flush fails and nothing reaches
the file. -/
def fullDeviceEnv : CsvEnv :=
  { createErr := fun _ => none, writeErr := fun _ => none, finalErr := none,
    flushErr := some "no space left on device", persisted := 0, title := titleCase }

/-- A file system in which the directory of the file does not exist:
`os.Create` fails. -/
def noDirEnv : CsvEnv :=
  { createErr := fun _ => some "no such file or directory", writeErr := fun _ => none,
    finalErr := none, flushErr := none, persisted := 0, title := titleCase }

/-- Four users: two adults, one aged exactly 18 whose name is not in title
case, one aged 17. -/
def csvUsers : List User :=
  [{ ID := 1, Name := "Erick Rettozi", Age := 48, Email := "erettozi@tolkien.com" },
   { ID := 2, Name := "Pippin", Age := 17, Email := "pippin@tolkien.com" },
   { ID := 3, Name := "Aragorn Elessar", Age := 37, Email := "aragorn@tolkien.com" },
   { ID := 4, Name := "frodo BAGGINS", Age := 18, Email := "frodo@tolkien.com" }]

/-- A decoder for the handler scenarios: the body `aragorn` decodes to a user
that carries the identifier 99, everything else is malformed. -/
def demoDecode (body : String) : Except String User :=
  if body = "aragorn" then
    .ok { ID := 99, Name := "Aragorn Elessar", Age := 37, Email := "aragorn@tolkien.com" }
  else .error "invalid character"

/-- A store holding one user under the key 1. -/
def oneUserStore : Store :=
  { users := Function.update (fun _ => none) 1
      (some { ID := 1, Name := "Erick Rettozi", Age := 48, Email := "erettozi@tolkien.com" }),
    nextID := 2 }

/-! ## Preservation of the invariant -/

theorem inv_init (cfg : Config) : Inv cfg initState := by
  refine ⟨rfl, rfl, rfl, by simp [initState], by simp [initState], ?_, ?_, ?_⟩
  · intro w hw; simp [initState] at hw
  · simp [initState]
  · simp [pcInv, initState]

theorem take_succ_enum (ids : List Int) (i : Nat) (id : Int) (h : ids[i]? = some id) :
    ids.enum.take (i + 1) = ids.enum.take i ++ [(i, id)] := by
  rw [List.take_succ]
  simp [List.enum, List.getElem?_enumFrom, h]

theorem inv_stepMain (cfg : Config) (s s' : State) (hI : Inv cfg s)
    (h : stepMain cfg s = some s') : Inv cfg s' := by
  obtain ⟨pc, wg, sem, results, closed, workers, users, trace, panicked⟩ := s
  obtain ⟨h1, h2, h3, h4, h5, h6, h7, h8⟩ := hI
  simp only at h1 h2 h3 h4 h5 h6 h7
  cases pc with
  | loop i =>
    simp only [pcInv] at h8
    obtain ⟨ha, hb, hc, hd⟩ := h8
    simp only [stepMain] at h
    split at h
    · rename_i id hid
      simp only [Option.some.injEq] at h
      subst h
      refine ⟨h1, ?_, ?_, h4, h5, h6, h7, ?_⟩
      · simp [MainPC.pendingAdd] at h2 ⊢; omega
      · simpa [MainPC.pendingSlot] using h3
      · exact ⟨ha, hid, hc, hd⟩
    · rename_i hid
      simp only [Option.some.injEq] at h
      subst h
      refine ⟨h1, ?_, ?_, h4, h5, h6, h7, ?_⟩
      · simpa [MainPC.pendingAdd] using h2
      · simpa [MainPC.pendingSlot] using h3
      · have : cfg.userIDs.length ≤ i := by
          simpa [List.getElem?_eq_none_iff] using hid
        exact ⟨by simp only; omega, hc, hd⟩
  | acquire i id =>
    simp only [pcInv] at h8
    simp only [stepMain] at h
    split at h
    · rename_i hlt
      simp only [Option.some.injEq] at h
      subst h
      refine ⟨h1, ?_, ?_, ?_, h5, h6, h7, h8⟩
      · simpa [MainPC.pendingAdd] using h2
      · simp [MainPC.pendingSlot] at h3 ⊢; omega
      · simp only; omega
    · simp at h
  | spawn i id =>
    simp only [pcInv] at h8
    obtain ⟨ha, hb, hc, hd⟩ := h8
    simp only [stepMain, Option.some.injEq] at h
    subst h
    have hlt : i < cfg.userIDs.length := by
      rcases List.getElem?_eq_some.1 hb with ⟨hh, _⟩
      exact hh
    refine ⟨h1, ?_, ?_, h4, ?_, ?_, ?_, ?_⟩
    · simp [MainPC.pendingAdd, Worker.running] at h2 ⊢; omega
    · simp [MainPC.pendingSlot, Worker.holdsSlot] at h3 ⊢; omega
    · simp only [List.map_append, List.length_append, List.length_singleton, List.map_cons,
        List.map_nil, ha, h5]
      rw [take_succ_enum _ _ _ hb]
      simp [Worker.key]
    · intro w hw u hu
      simp only [List.mem_append, List.mem_singleton] at hw
      rcases hw with hw | hw
      · exact h6 w hw u hu
      · subst hw; simp at hu
    · simpa [List.filterMap_append, Worker.delivered] using h7
    · simp only [pcInv]
      exact ⟨by simp [ha], by omega, hc, hd⟩
  | waiting =>
    simp only [pcInv] at h8
    obtain ⟨ha, hc, hd⟩ := h8
    simp only [stepMain] at h
    split at h
    · rename_i hw
      simp only [Option.some.injEq] at h
      subst h
      refine ⟨h1, ?_, ?_, h4, h5, h6, h7, ?_⟩
      · simpa [MainPC.pendingAdd] using h2
      · simpa [MainPC.pendingSlot] using h3
      · simp only [pcInv]
        simp [MainPC.pendingAdd] at h2
        exact ⟨ha, hc, hd, by omega⟩
    · simp at h
  | closing =>
    simp only [pcInv] at h8
    obtain ⟨ha, hc, hd, he⟩ := h8
    simp only [stepMain] at h
    simp only [hc] at h
    simp only [Bool.false_eq_true, if_false, Option.some.injEq] at h
    subst h
    refine ⟨h1, ?_, ?_, h4, h5, h6, h7, ?_⟩
    · simpa [MainPC.pendingAdd] using h2
    · simpa [MainPC.pendingSlot] using h3
    · exact ⟨ha, rfl, he⟩
  | collecting =>
    simp only [pcInv] at h8
    obtain ⟨ha, hc, he⟩ := h8
    simp only [stepMain] at h
    split at h
    · rename_i u rest
      simp only [Option.some.injEq] at h
      subst h
      refine ⟨h1, ?_, ?_, h4, h5, h6, ?_, ?_⟩
      · simpa [MainPC.pendingAdd] using h2
      · simpa [MainPC.pendingSlot] using h3
      · simpa using h7
      · exact ⟨ha, hc, he⟩
    · simp only [hc, if_true, Option.some.injEq] at h
      subst h
      refine ⟨h1, ?_, ?_, h4, h5, h6, h7, ?_⟩
      · simpa [MainPC.pendingAdd] using h2
      · simpa [MainPC.pendingSlot] using h3
      · exact ⟨ha, rfl, he, rfl⟩
  | exporting =>
    simp only [pcInv] at h8
    simp only [stepMain, Option.some.injEq] at h
    subst h
    refine ⟨h1, ?_, ?_, h4, h5, h6, h7, h8⟩
    · simpa [MainPC.pendingAdd] using h2
    · simpa [MainPC.pendingSlot] using h3
  | returned => simp [stepMain] at h


theorem split_at {α : Type} (l : List α) (p : Nat) (w : α) (h : l[p]? = some w) :
    ∃ l1 l2, l = l1 ++ w :: l2 ∧ l1.length = p ∧ ∀ w', l.set p w' = l1 ++ w' :: l2 := by
  induction l generalizing p with
  | nil => simp at h
  | cons x xs ih =>
    cases p with
    | zero =>
      simp only [List.getElem?_cons_zero, Option.some.injEq] at h
      subst h
      exact ⟨[], xs, rfl, rfl, fun _ => rfl⟩
    | succ n =>
      simp only [List.getElem?_cons_succ] at h
      obtain ⟨l1, l2, e, hl, hs⟩ := ih n h
      refine ⟨x :: l1, l2, by simp [e], by simp [hl], ?_⟩
      intro w'
      simp [List.set_cons_succ, hs]

theorem countP_running_pos (l1 l2 : List Worker) (w : Worker) (h : w.running = true) :
    0 < (l1 ++ w :: l2).countP Worker.running := by
  simp [List.countP_append, List.countP_cons, h]

theorem inv_stepWorker (cfg : Config) (s s' : State) (p : Nat) (hI : Inv cfg s)
    (h : stepWorker cfg s p = some s') : Inv cfg s' := by
  obtain ⟨pc, wg, sem, results, closed, workers, users, trace, panicked⟩ := s
  obtain ⟨h1, h2, h3, h4, h5, h6, h7, h8⟩ := hI
  simp only at h1 h2 h3 h4 h5 h6 h7
  simp only [stepWorker] at h
  split at h
  · simp at h
  · rename_i w hw
    obtain ⟨l1, l2, e, hl, hs⟩ := split_at workers p w hw
    obtain ⟨wpos, wid, wpc⟩ := w
    subst e
    have hrun : wpc ≠ .exited → pc.pendingAdd + 0 < wg ∧ closed = false := by
      intro hne
      have hr : Worker.running ⟨wpos, wid, wpc⟩ = true := by
        cases wpc <;> simp_all [Worker.running]
      have := countP_running_pos l1 l2 _ hr
      refine ⟨by omega, ?_⟩
      cases pc <;> simp only [pcInv] at h8 <;> first | exact h8.2.2.1 | exact h8.2.1 | omega
    cases wpc with
    | fetching =>
      simp only at h
      split at h
      · rename_i u hu
        simp only [Option.some.injEq] at h
        subst h
        simp only [hs]
        refine ⟨h1, ?_, ?_, h4, ?_, ?_, ?_, ?_⟩
        · simpa [List.countP_append, List.countP_cons, Worker.running] using h2
        · simpa [List.countP_append, List.countP_cons, Worker.holdsSlot] using h3
        · simpa [Worker.key] using h5
        · intro w hw' u' hu'
          simp only [List.mem_append, List.mem_cons] at hw'
          rcases hw' with hw' | hw' | hw'
          · exact h6 w (by simp [hw']) u' hu'
          · subst hw'
            simp only [WorkerPC.sending.injEq] at hu'
            subst hu'
            simp [lookupRecord, hu, FetchResult.record]
          · exact h6 w (by simp [hw']) u' hu'
        · simpa [List.filterMap_append, List.filterMap_cons, Worker.delivered] using h7
        · cases pc <;> simp only [pcInv] at h8 ⊢ <;>
            simp_all [List.countP_append, List.countP_cons, Worker.running]
      · rename_i f hf
        simp only [Option.some.injEq] at h
        subst h
        simp only [hs]
        refine ⟨h1, ?_, ?_, h4, ?_, ?_, ?_, ?_⟩
        · simpa [List.countP_append, List.countP_cons, Worker.running] using h2
        · simpa [List.countP_append, List.countP_cons, Worker.holdsSlot] using h3
        · simpa [Worker.key] using h5
        · intro w hw' u' hu'
          simp only [List.mem_append, List.mem_cons] at hw'
          rcases hw' with hw' | hw' | hw'
          · exact h6 w (by simp [hw']) u' hu'
          · subst hw'
            simp at hu'
          · exact h6 w (by simp [hw']) u' hu'
        · simpa [List.filterMap_append, List.filterMap_cons, Worker.delivered, lookupRecord, hf,
            FetchResult.record] using h7
        · cases pc <;> simp only [pcInv] at h8 ⊢ <;>
            simp_all [List.countP_append, List.countP_cons, Worker.running]
    | sending u =>
      have hc := (hrun (by simp)).2
      have hrec := h6 ⟨wpos, wid, .sending u⟩ (by simp) u rfl
      simp only [hc, Bool.false_eq_true, if_false] at h
      split at h
      · simp only [Option.some.injEq] at h
        subst h
        simp only [hs]
        refine ⟨h1, ?_, ?_, h4, ?_, ?_, ?_, ?_⟩
        · simpa [List.countP_append, List.countP_cons, Worker.running] using h2
        · simpa [List.countP_append, List.countP_cons, Worker.holdsSlot] using h3
        · simpa [Worker.key] using h5
        · intro w hw' u' hu'
          simp only [List.mem_append, List.mem_cons] at hw'
          rcases hw' with hw' | hw' | hw'
          · exact h6 w (by simp [hw']) u' hu'
          · subst hw'
            simp at hu'
          · exact h6 w (by simp [hw']) u' hu'
        · simp only [List.filterMap_append, List.filterMap_cons, Worker.delivered] at h7 ⊢
          simp only at hrec
          simp only [hrec]
          rw [← List.append_assoc]
          refine (List.perm_append_singleton _ _).trans ?_
          refine List.Perm.trans ?_ List.perm_middle.symm
          exact List.Perm.cons _ (by simpa using h7)
        · cases pc <;> simp only [pcInv] at h8 ⊢ <;>
            simp_all [List.countP_append, List.countP_cons, Worker.running]
      · simp at h
    | releasing =>
      simp only at h
      split at h
      · rename_i hpos
        simp only [Option.some.injEq] at h
        subst h
        simp only [hs]
        refine ⟨h1, ?_, ?_, by simp only; omega, ?_, ?_, ?_, ?_⟩
        · simpa [List.countP_append, List.countP_cons, Worker.running] using h2
        · simp [List.countP_append, List.countP_cons, Worker.holdsSlot] at h3 ⊢; omega
        · simpa [Worker.key] using h5
        · intro w hw' u' hu'
          simp only [List.mem_append, List.mem_cons] at hw'
          rcases hw' with hw' | hw' | hw'
          · exact h6 w (by simp [hw']) u' hu'
          · subst hw'
            simp at hu'
          · exact h6 w (by simp [hw']) u' hu'
        · simpa [List.filterMap_append, List.filterMap_cons, Worker.delivered] using h7
        · cases pc <;> simp only [pcInv] at h8 ⊢ <;>
            simp_all [List.countP_append, List.countP_cons, Worker.running]
      · simp at h
    | finishing =>
      have hwg := (hrun (by simp)).1
      have hc := (hrun (by simp)).2
      have hne : wg ≠ 0 := by omega
      simp only [hne, if_false, Option.some.injEq] at h
      subst h
      simp only [hs]
      refine ⟨h1, ?_, ?_, h4, ?_, ?_, ?_, ?_⟩
      · simp [List.countP_append, List.countP_cons, Worker.running] at h2 ⊢; omega
      · simpa [List.countP_append, List.countP_cons, Worker.holdsSlot] using h3
      · simpa [Worker.key] using h5
      · intro w hw' u' hu'
        simp only [List.mem_append, List.mem_cons] at hw'
        rcases hw' with hw' | hw' | hw'
        · exact h6 w (by simp [hw']) u' hu'
        · subst hw'
          simp at hu'
        · exact h6 w (by simp [hw']) u' hu'
      · simpa [List.filterMap_append, List.filterMap_cons, Worker.delivered] using h7
      · cases pc <;> simp only [pcInv] at h8 ⊢ <;>
          simp_all [List.countP_append, List.countP_cons, Worker.running]
    | exited => simp at h

theorem inv_step (cfg : Config) (s s' : State) (a : Action) (hI : Inv cfg s)
    (h : step cfg s a = some s') : Inv cfg s' := by
  unfold step at h
  simp only [hI.noPanic, Bool.false_eq_true, if_false] at h
  cases a with
  | main => exact inv_stepMain cfg s s' hI h
  | worker p => exact inv_stepWorker cfg s s' p hI h

theorem reachable_inv (cfg : Config) (s : State) (h : Reachable cfg s) : Inv cfg s := by
  induction h with
  | init => exact inv_init cfg
  | step a _ hs ih => exact inv_step cfg _ _ a ih hs

/-! ## Progress and termination -/

theorem reachable_execFrom (cfg : Config) (sched : List Action) (s s' : State)
    (hs : Reachable cfg s) (h : execFrom cfg s sched = some s') : Reachable cfg s' := by
  induction sched generalizing s with
  | nil =>
    simp only [execFrom, Option.some.injEq] at h
    exact h ▸ hs
  | cons a rest ih =>
    simp only [execFrom] at h
    split at h
    · simp at h
    · rename_i s1 h1
      exact ih s1 (Reachable.step a hs h1) h

theorem reachable_exec (cfg : Config) (sched : List Action) (s : State)
    (h : exec cfg sched = some s) : Reachable cfg s :=
  reachable_execFrom cfg sched initState s Reachable.init h

theorem execFrom_append (cfg : Config) (xs ys : List Action) (s : State) :
    execFrom cfg s (xs ++ ys) = (execFrom cfg s xs).bind (fun t => execFrom cfg t ys) := by
  induction xs generalizing s with
  | nil => simp [execFrom]
  | cons a rest ih =>
    simp only [List.cons_append, execFrom]
    cases step cfg s a with
    | none => simp
    | some t => simpa using ih t

theorem delivered_length_le (cfg : Config) (l : List Worker) :
    (l.filterMap (Worker.delivered cfg)).length + l.countP Worker.beforeSend ≤ l.length := by
  induction l with
  | nil => simp
  | cons w rest ih =>
    have key : ((w :: rest).filterMap (Worker.delivered cfg)).length ≤
        (rest.filterMap (Worker.delivered cfg)).length + (if w.beforeSend then 0 else 1) := by
      rw [List.filterMap_cons]
      obtain ⟨wpos, wid, wpc⟩ := w
      cases wpc <;> simp only [Worker.delivered, Worker.beforeSend] <;> (try split) <;> simp
    simp only [List.countP_cons, List.length_cons]
    split at key <;> simp_all <;> omega

theorem inv_length_le (cfg : Config) (s : State) (hI : Inv cfg s) :
    s.workers.length ≤ cfg.userIDs.length := by
  have h8 := hI.atPc
  unfold pcInv at h8
  split at h8
  · omega
  · have := (List.getElem?_eq_some.1 h8.2.1).1
    omega
  · have := (List.getElem?_eq_some.1 h8.2.1).1
    omega
  all_goals omega

theorem inv_results_lt (cfg : Config) (s : State) (hI : Inv cfg s)
    (hb : 0 < s.workers.countP Worker.beforeSend) :
    s.results.length < cfg.userIDs.length := by
  have h1 := delivered_length_le cfg s.workers
  have h2 := hI.collected.length_eq
  have h3 := inv_length_le cfg s hI
  simp only [List.length_append] at h2
  omega

theorem inv_results_le (cfg : Config) (s : State) (hI : Inv cfg s) :
    s.results.length ≤ cfg.userIDs.length := by
  have h1 := delivered_length_le cfg s.workers
  have h2 := hI.collected.length_eq
  have h3 := inv_length_le cfg s hI
  simp only [List.length_append] at h2
  omega

theorem inv_open_of_running (cfg : Config) (s : State) (hI : Inv cfg s)
    (hr : 0 < s.workers.countP Worker.running) : s.closed = false ∧ 0 < s.wg := by
  have h8 := hI.atPc
  have h2 := hI.wgEq
  unfold pcInv at h8
  refine ⟨?_, by omega⟩
  split at h8
  · exact h8.2.2.1
  · exact h8.2.2.1
  · exact h8.2.2.1
  · exact h8.2.1
  all_goals omega

/-- A launched worker that has not exited can always take its next step. -/
theorem worker_enabled (cfg : Config) (s : State) (p : Nat) (w : Worker) (hI : Inv cfg s)
    (hw : s.workers[p]? = some w) (hne : w.pc ≠ .exited) :
    ∃ s', step cfg s (.worker p) = some s' := by
  obtain ⟨l1, l2, e, _, _⟩ := split_at s.workers p w hw
  have hrun : 0 < s.workers.countP Worker.running := by
    rw [e]
    apply countP_running_pos
    obtain ⟨wpos, wid, wpc⟩ := w
    cases wpc <;> simp_all [Worker.running]
  obtain ⟨hc, hwg⟩ := inv_open_of_running cfg s hI hrun
  have h3 := hI.semEq
  simp only [step, hI.noPanic, Bool.false_eq_true, if_false, stepWorker, hw]
  obtain ⟨wpos, wid, wpc⟩ := w
  cases wpc with
  | fetching =>
    simp only
    split <;> exact ⟨_, rfl⟩
  | sending u =>
    have hb : 0 < s.workers.countP Worker.beforeSend := by
      rw [e]; simp [List.countP_append, List.countP_cons, Worker.beforeSend]
    have := inv_results_lt cfg s hI hb
    simp only [hc, Bool.false_eq_true, if_false, this, if_true]
    exact ⟨_, rfl⟩
  | releasing =>
    have : 0 < s.semaphore := by
      rw [h3, e]; simp [List.countP_append, List.countP_cons, Worker.holdsSlot]
    simp only [this, if_true]
    exact ⟨_, rfl⟩
  | finishing =>
    have : s.wg ≠ 0 := by omega
    simp only [this, if_false]
    exact ⟨_, rfl⟩
  | exited => exact absurd rfl hne

theorem exists_of_countP_pos (f : Worker → Bool) (l : List Worker) (h : 0 < l.countP f) :
    ∃ (p : Nat) (w : Worker), l[p]? = some w ∧ f w = true := by
  obtain ⟨w, hw, hf⟩ := List.countP_pos_iff.1 h
  obtain ⟨p, hp⟩ := List.getElem?_of_mem hw
  exact ⟨p, w, hp, hf⟩

/-- A state that has not returned is never stuck. -/
theorem inv_progress (cfg : Config) (s : State) (hI : Inv cfg s) (hpc : s.pc ≠ .returned) :
    ∃ a s', step cfg s a = some s' := by
  by_cases hr : 0 < s.workers.countP Worker.running
  · obtain ⟨p, w, hw, hf⟩ := exists_of_countP_pos _ _ hr
    have hne : w.pc ≠ .exited := by
      intro hh
      simp [Worker.running, hh] at hf
    obtain ⟨s', hs'⟩ := worker_enabled cfg s p w hI hw hne
    exact ⟨_, _, hs'⟩
  · have hr0 : s.workers.countP Worker.running = 0 := by omega
    have h2 := hI.wgEq
    have h3 := hI.semEq
    have h4 := hI.semLe
    have h8 := hI.atPc
    have hslot : s.workers.countP Worker.holdsSlot = 0 := by
      rw [List.countP_eq_zero] at hr0 ⊢
      intro w hw
      have := hr0 w hw
      obtain ⟨wpos, wid, wpc⟩ := w
      cases wpc <;> simp_all [Worker.running, Worker.holdsSlot]
    refine ⟨.main, ?_⟩
    simp only [step, hI.noPanic, Bool.false_eq_true, if_false, stepMain]
    unfold pcInv at h8
    split at h8
    · rename_i i hi
      split <;> exact ⟨_, rfl⟩
    · rename_i i id hi
      have : s.semaphore < MaxConcurrentFetches := by
        simp only [hi, MainPC.pendingSlot] at h3
        simp only [MaxConcurrentFetches]
        omega
      simp only [hi, this, if_true]
      exact ⟨_, rfl⟩
    · rename_i i id hi
      exact ⟨_, rfl⟩
    · rename_i hi
      have : s.wg = 0 := by
        simp only [hi, MainPC.pendingAdd] at h2
        omega
      simp only [hi, this, if_true]
      exact ⟨_, rfl⟩
    · rename_i hi
      simp only [hi, h8.2.1, Bool.false_eq_true, if_false]
      exact ⟨_, rfl⟩
    · rename_i hi
      simp only [hi, h8.2.1, if_true]
      split <;> exact ⟨_, rfl⟩
    · rename_i hi
      exact ⟨_, rfl⟩
    · rename_i hi
      exact absurd hi hpc

theorem fuel_stepMain (cfg : Config) (s s' : State) (hI : Inv cfg s)
    (h : stepMain cfg s = some s') : fuel cfg s' < fuel cfg s := by
  have hres := inv_results_le cfg s hI
  obtain ⟨pc, wg, sem, results, closed, workers, users, trace, panicked⟩ := s
  have h8 := hI.atPc
  simp only at hres
  cases pc with
  | loop i =>
    simp only [stepMain] at h
    split at h
    · rename_i id hid
      have := (List.getElem?_eq_some.1 hid).1
      simp only [Option.some.injEq] at h
      subst h
      simp only [fuel, mainFuel]
      omega
    · simp only [Option.some.injEq] at h
      subst h
      simp only [fuel, mainFuel]
      omega
  | acquire i id =>
    simp only [pcInv] at h8
    have := (List.getElem?_eq_some.1 h8.2.1).1
    simp only [stepMain] at h
    split at h
    · simp only [Option.some.injEq] at h
      subst h
      simp only [fuel, mainFuel]
      omega
    · simp at h
  | spawn i id =>
    simp only [pcInv] at h8
    have := (List.getElem?_eq_some.1 h8.2.1).1
    simp only [stepMain, Option.some.injEq] at h
    subst h
    simp only [fuel, mainFuel, List.map_append, List.sum_append, List.map_cons, List.map_nil,
      List.sum_cons, List.sum_nil, Worker.fuel]
    omega
  | waiting =>
    simp only [stepMain] at h
    split at h
    · simp only [Option.some.injEq] at h
      subst h
      simp only [fuel, mainFuel]
      omega
    · simp at h
  | closing =>
    simp only [stepMain] at h
    split at h
    · simp only [pcInv] at h8
      simp_all
    · simp only [Option.some.injEq] at h
      subst h
      simp only [fuel, mainFuel]
      omega
  | collecting =>
    simp only [stepMain] at h
    split at h
    · simp only [Option.some.injEq] at h
      subst h
      simp only [fuel, mainFuel, List.length_cons]
      omega
    · split at h
      · simp only [Option.some.injEq] at h
        subst h
        simp only [fuel, mainFuel, List.length_nil]
        omega
      · simp at h
  | exporting =>
    simp only [stepMain, Option.some.injEq] at h
    subst h
    simp only [fuel, mainFuel]
    omega
  | returned => simp [stepMain] at h

theorem fuel_stepWorker (cfg : Config) (s s' : State) (p : Nat) (hI : Inv cfg s)
    (h : stepWorker cfg s p = some s') : fuel cfg s' < fuel cfg s := by
  have hI' := inv_stepWorker cfg s s' p hI h
  have hnp := hI'.noPanic
  obtain ⟨pc, wg, sem, results, closed, workers, users, trace, panicked⟩ := s
  have h8 := hI.atPc
  simp only [stepWorker] at h
  split at h
  · simp at h
  · rename_i w hw
    obtain ⟨l1, l2, e, hl, hs⟩ := split_at workers p w hw
    obtain ⟨wpos, wid, wpc⟩ := w
    subst e
    have hnc : pc ≠ .collecting := by
      intro hpc
      subst hpc
      simp only [pcInv] at h8
      have hz := h8.2.2
      rw [List.countP_eq_zero] at hz
      have := hz ⟨wpos, wid, wpc⟩ (by simp)
      cases wpc <;> simp_all [Worker.running, stepWorker]
    have hmain : ∀ r r' ws ws' tr tr' g g' c c' us q q',
        mainFuel cfg.userIDs.length ⟨pc, g, c, r, q, ws, us, tr, false⟩ =
        mainFuel cfg.userIDs.length ⟨pc, g', c', r', q', ws', us, tr', false⟩ := by
      intros
      cases pc <;> simp_all [mainFuel]
    cases wpc with
    | fetching =>
      simp only at h
      split at h <;>
      · simp only [Option.some.injEq] at h
        subst h
        simp only at hnp
        subst hnp
        simp only [fuel, hs, List.map_append, List.sum_append, List.map_cons, List.sum_cons,
          Worker.fuel]
        rw [hmain results results _ (l1 ++ ⟨wpos, wid, .fetching⟩ :: l2) _ trace wg wg sem sem
          users closed closed]
        omega
    | sending u =>
      simp only at h
      split at h
      · simp only [Option.some.injEq] at h
        subst h
        simp at hnp
      · split at h
        · simp only [Option.some.injEq] at h
          subst h
          simp only at hnp
          subst hnp
          simp only [fuel, hs, List.map_append, List.sum_append, List.map_cons, List.sum_cons,
            Worker.fuel]
          rw [hmain _ results _ (l1 ++ ⟨wpos, wid, .sending u⟩ :: l2) _ trace wg wg sem sem
            users closed closed]
          omega
        · simp at h
    | releasing =>
      simp only at h
      split at h
      · simp only [Option.some.injEq] at h
        subst h
        simp only at hnp
        subst hnp
        simp only [fuel, hs, List.map_append, List.sum_append, List.map_cons, List.sum_cons,
          Worker.fuel]
        rw [hmain results results _ (l1 ++ ⟨wpos, wid, .releasing⟩ :: l2) _ trace wg wg _ sem
          users closed closed]
        omega
      · simp at h
    | finishing =>
      simp only at h
      split at h
      · simp only [Option.some.injEq] at h
        subst h
        simp at hnp
      · simp only [Option.some.injEq] at h
        subst h
        simp only at hnp
        subst hnp
        simp only [fuel, hs, List.map_append, List.sum_append, List.map_cons, List.sum_cons,
          Worker.fuel]
        rw [hmain results results _ (l1 ++ ⟨wpos, wid, .finishing⟩ :: l2) _ trace _ wg sem sem
          users closed closed]
        omega
    | exited => simp at h

/-- Every step of a reachable state strictly decreases the measure: no
execution runs forever. -/
theorem fuel_step (cfg : Config) (s s' : State) (a : Action) (hI : Inv cfg s)
    (h : step cfg s a = some s') : fuel cfg s' < fuel cfg s := by
  unfold step at h
  simp only [hI.noPanic, Bool.false_eq_true, if_false] at h
  cases a with
  | main => exact fuel_stepMain cfg s s' hI h
  | worker p => exact fuel_stepWorker cfg s s' p hI h

/-- From every state satisfying the invariant some schedule runs the call to
its `return`. -/
theorem inv_completes (cfg : Config) (n : Nat) :
    ∀ s, Inv cfg s → fuel cfg s ≤ n →
      ∃ sched s', execFrom cfg s sched = some s' ∧ s'.pc = .returned := by
  induction n with
  | zero =>
    intro s hI hf
    by_cases hpc : s.pc = .returned
    · exact ⟨[], s, rfl, hpc⟩
    · obtain ⟨a, s1, h1⟩ := inv_progress cfg s hI hpc
      have := fuel_step cfg s s1 a hI h1
      omega
  | succ n ih =>
    intro s hI hf
    by_cases hpc : s.pc = .returned
    · exact ⟨[], s, rfl, hpc⟩
    · obtain ⟨a, s1, h1⟩ := inv_progress cfg s hI hpc
      have hlt := fuel_step cfg s s1 a hI h1
      obtain ⟨sched, s2, h2, h3⟩ := ih s1 (inv_step cfg s s1 a hI h1) (by omega)
      refine ⟨a :: sched, s2, ?_, h3⟩
      simp [execFrom, h1, h2]

/-- No schedule is longer than the initial measure. -/
theorem execFrom_length_le (cfg : Config) (sched : List Action) (s s' : State)
    (hI : Inv cfg s) (h : execFrom cfg s sched = some s') :
    sched.length + fuel cfg s' ≤ fuel cfg s := by
  induction sched generalizing s with
  | nil =>
    simp only [execFrom, Option.some.injEq] at h
    subst h
    simp
  | cons a rest ih =>
    simp only [execFrom] at h
    split at h
    · simp at h
    · rename_i s1 h1
      have := ih s1 (inv_step cfg s s1 a hI h1) h
      have := fuel_step cfg s s1 a hI h1
      simp only [List.length_cons]
      omega

/-! ## The trace invariant -/

theorem shape_get (cfg : Config) (s : State) (hI : Inv cfg s) (p : Nat) (w : Worker)
    (hw : s.workers[p]? = some w) : w.pos = p ∧ cfg.userIDs[p]? = some w.id := by
  have h5 := hI.shape
  have hlt : p < s.workers.length := (List.getElem?_eq_some.1 hw).1
  have h := congrArg (fun l => l[p]?) h5
  simp only [List.getElem?_map, hw, Option.map_some', List.getElem?_take, hlt, if_true,
    List.getElem?_enum] at h
  cases hid : cfg.userIDs[p]? with
  | none => simp [hid] at h
  | some id =>
    simp only [hid, Option.map_some', Option.some.injEq, Worker.key, Prod.mk.injEq] at h
    exact ⟨h.1, by rw [h.2]⟩

theorem traceInv_init (cfg : Config) : TraceInv cfg initState := by
  refine ⟨?_, ?_, ?_, ?_⟩
  · intro q; simp [initState, ownedBy]
  · simp [initState, mainEvents, mainExpected]
  · simp [initState]
  · simp [initState, lookups]

theorem ownedBy_append (q : Nat) (xs ys : List Event) :
    ownedBy q (xs ++ ys) = ownedBy q xs ++ ownedBy q ys := by
  simp [ownedBy]

theorem mainEvents_append (xs ys : List Event) :
    mainEvents (xs ++ ys) = mainEvents xs ++ mainEvents ys := by
  simp [mainEvents]

theorem traceInv_stepMain (cfg : Config) (s s' : State) (hI : Inv cfg s) (hT : TraceInv cfg s)
    (h : stepMain cfg s = some s') : TraceInv cfg s' := by
  obtain ⟨pc, wg, sem, results, closed, workers, users, trace, panicked⟩ := s
  obtain ⟨t1, t2, t3, t4⟩ := hT
  have h8 := hI.atPc
  simp only [lookups] at t1 t2 t3 t4
  cases pc with
  | loop i =>
    simp only [stepMain] at h
    split at h <;>
    · simp only [Option.some.injEq] at h
      subst h
      refine ⟨?_, ?_, ?_, ?_⟩
      · intro q
        simpa [ownedBy_append, ownedBy, Event.owner] using t1 q
      · simp only [mainEvents_append, t2]
        simp [mainExpected, mainEvents, Event.owner]
      · simpa [List.countP_append, Event.isAcquire, Event.isRelease] using t3
      · simpa [lookups, List.filterMap_append, Event.lookupKey] using t4
  | acquire i id =>
    simp only [stepMain] at h
    split at h
    · simp only [Option.some.injEq] at h
      subst h
      refine ⟨?_, ?_, ?_, ?_⟩
      · intro q
        simpa [ownedBy_append, ownedBy, Event.owner] using t1 q
      · simp only [mainEvents_append, t2]
        simp [mainExpected, mainEvents, Event.owner]
      · simp [List.countP_append, Event.isAcquire, Event.isRelease] at t3 ⊢
        omega
      · simpa [lookups, List.filterMap_append, Event.lookupKey] using t4
    · simp at h
  | spawn i id =>
    simp only [pcInv] at h8
    obtain ⟨ha, hb, -, -⟩ := h8
    simp only [stepMain, Option.some.injEq] at h
    subst h
    refine ⟨?_, ?_, ?_, ?_⟩
    · intro q
      have := t1 q
      simp only [ownedBy_append, this]
      rcases Nat.lt_trichotomy q workers.length with hq | hq | hq
      · simp [List.getElem?_append_left hq, ownedBy, Event.owner]
      · subst hq
        simp [ownedBy, Event.owner, Worker.events]
      · have h1 : workers[q]? = none := by simp [List.getElem?_eq_none_iff]; omega
        have h2 : (workers ++ [(⟨i, id, .fetching⟩ : Worker)])[q]? = none := by
          simp [List.getElem?_eq_none_iff]; omega
        simp [h1, h2, ownedBy, Event.owner]
    · simp only [mainEvents_append, t2]
      simp only [mainExpected, List.length_append, List.length_singleton, ha]
      rw [take_succ_enum _ _ _ hb]
      simp [mainEvents, Event.owner, submitEvents]
    · simpa [List.countP_append, Event.isAcquire, Event.isRelease] using t3
    · simpa [lookups, List.filterMap_append, Event.lookupKey, List.filter_append,
        Worker.started] using t4
  | waiting =>
    simp only [stepMain] at h
    split at h
    · simp only [Option.some.injEq] at h
      subst h
      exact ⟨t1, by simpa [mainExpected] using t2, t3, t4⟩
    · simp at h
  | closing =>
    simp only [stepMain] at h
    split at h
    · simp only [pcInv] at h8
      simp_all
    · simp only [Option.some.injEq] at h
      subst h
      refine ⟨?_, ?_, ?_, ?_⟩
      · intro q
        simpa [ownedBy_append, ownedBy, Event.owner] using t1 q
      · simp only [mainEvents_append, t2]
        simp [mainExpected, mainEvents, Event.owner]
      · simpa [List.countP_append, Event.isAcquire, Event.isRelease] using t3
      · simpa [lookups, List.filterMap_append, Event.lookupKey] using t4
  | collecting =>
    simp only [stepMain] at h
    split at h
    · simp only [Option.some.injEq] at h
      subst h
      exact ⟨t1, by simpa [mainExpected] using t2, t3, t4⟩
    · split at h
      · simp only [Option.some.injEq] at h
        subst h
        exact ⟨t1, by simpa [mainExpected] using t2, t3, t4⟩
      · simp at h
  | exporting =>
    simp only [stepMain, Option.some.injEq] at h
    subst h
    refine ⟨?_, ?_, ?_, ?_⟩
    · intro q
      simpa [ownedBy_append, ownedBy, Event.owner] using t1 q
    · simp only [mainEvents_append, t2]
      simp [mainExpected, mainEvents, Event.owner]
    · simpa [List.countP_append, Event.isAcquire, Event.isRelease] using t3
    · simpa [lookups, List.filterMap_append, Event.lookupKey] using t4
  | returned => simp [stepMain] at h

theorem own_update (cfg : Config) (ws : List Worker) (tr evs : List Event) (p : Nat)
    (w w' : Worker) (hw : ws[p]? = some w)
    (t1 : ∀ q, ownedBy q tr = match ws[q]? with
      | some x => x.events cfg
      | none => [])
    (hown : ∀ e ∈ evs, e.owner = some p)
    (hev : w'.events cfg = w.events cfg ++ evs) :
    ∀ q, ownedBy q (tr ++ evs) = match (ws.set p w')[q]? with
      | some x => x.events cfg
      | none => [] := by
  intro q
  have hlt : p < ws.length := (List.getElem?_eq_some.1 hw).1
  rw [ownedBy_append, t1 q, List.getElem?_set]
  by_cases hq : p = q
  · subst hq
    simp only [if_true, hlt, hw, hev, List.append_cancel_left_eq]
    simp only [ownedBy, List.filter_eq_self]
    intro e he
    simp [hown e he]
  · simp only [hq, if_false]
    have : ownedBy q evs = [] := by
      simp only [ownedBy, List.filter_eq_nil_iff]
      intro e he
      simp only [hown e he, Option.some.injEq, decide_eq_true_eq]
      exact hq
    simp [this]

theorem mainEvents_owned (tr evs : List Event) (p : Nat) (hown : ∀ e ∈ evs, e.owner = some p) :
    mainEvents (tr ++ evs) = mainEvents tr := by
  rw [mainEvents_append]
  have : mainEvents evs = [] := by
    simp only [mainEvents, List.filter_eq_nil_iff]
    intro e he
    simp [hown e he]
  simp [this]

theorem mainExpected_congr (cfg : Config) (s t : State) (hpc : s.pc = t.pc)
    (hlen : s.workers.length = t.workers.length) (hu : s.users = t.users) :
    mainExpected cfg s = mainExpected cfg t := by
  simp only [mainExpected, hpc, hlen, hu]

theorem traceInv_stepWorker (cfg : Config) (s s' : State) (p : Nat) (hI : Inv cfg s)
    (hT : TraceInv cfg s) (h : stepWorker cfg s p = some s') : TraceInv cfg s' := by
  have hI' := inv_stepWorker cfg s s' p hI h
  have hnp := hI'.noPanic
  obtain ⟨pc, wg, sem, results, closed, workers, users, trace, panicked⟩ := s
  obtain ⟨t1, t2, t3, t4⟩ := hT
  simp only [lookups] at t1 t2 t3 t4
  simp only [stepWorker] at h
  split at h
  · simp at h
  · rename_i w hw
    obtain ⟨hpos, -⟩ := shape_get cfg _ hI p w hw
    obtain ⟨l1, l2, e, hl, hs⟩ := split_at workers p w hw
    obtain ⟨wpos, wid, wpc⟩ := w
    simp only at hpos
    subst hpos
    cases wpc with
    | fetching =>
      simp only at h
      split at h
      · rename_i u hu
        simp only [Option.some.injEq] at h
        subst h
        refine ⟨?_, ?_, ?_, ?_⟩
        · exact own_update cfg workers trace _ wpos _ _ hw t1 (by simp [Event.owner])
            (by simp [Worker.events])
        · simp only
          rw [mainEvents_owned _ _ wpos (by simp [Event.owner]), t2]
          exact mainExpected_congr cfg _ _ rfl (by simp) rfl
        · simpa [List.countP_append, Event.isAcquire, Event.isRelease] using t3
        · simp only [lookups, hs, List.filterMap_append]
          subst e
          simp only [List.filter_append, List.filter_cons, Worker.started, List.map_append,
            List.map_cons, Worker.key, List.filterMap_cons, Event.lookupKey, List.filterMap_nil,
            Bool.false_eq_true, if_false, if_true] at t4 ⊢
          exact (List.perm_append_singleton _ _).trans
            ((List.Perm.cons _ t4).trans List.perm_middle.symm)
      · rename_i f hf
        simp only [Option.some.injEq] at h
        subst h
        refine ⟨?_, ?_, ?_, ?_⟩
        · exact own_update cfg workers trace _ wpos _ _ hw t1 (by simp [Event.owner])
            (by simp [Worker.events, bodyEvents, hf])
        · simp only
          rw [mainEvents_owned _ _ wpos (by simp [Event.owner]), t2]
          exact mainExpected_congr cfg _ _ rfl (by simp) rfl
        · simpa [List.countP_append, Event.isAcquire, Event.isRelease] using t3
        · simp only [lookups, hs, List.filterMap_append]
          subst e
          simp only [List.filter_append, List.filter_cons, Worker.started, List.map_append,
            List.map_cons, Worker.key, List.filterMap_cons, Event.lookupKey, List.filterMap_nil,
            Bool.false_eq_true, if_false, if_true] at t4 ⊢
          exact (List.perm_append_singleton _ _).trans
            ((List.Perm.cons _ t4).trans List.perm_middle.symm)
    | sending u =>
      have hrec := hI.sendingOk ⟨wpos, wid, .sending u⟩ (List.getElem?_mem hw) u rfl
      simp only at h
      split at h
      · simp only [Option.some.injEq] at h
        subst h
        simp at hnp
      · split at h
        · simp only [Option.some.injEq] at h
          subst h
          have hbody : bodyEvents cfg wpos wid = [.lookup wpos wid, .send wpos u] := by
            simp only [lookupRecord] at hrec
            simp only [bodyEvents]
            cases hf : fetchOutcome cfg.decode (cfg.source wpos wid) with
            | failed f => simp [hf, FetchResult.record] at hrec
            | ok v =>
              simp only [hf, FetchResult.record, Option.some.injEq] at hrec
              simp [hrec]
          refine ⟨?_, ?_, ?_, ?_⟩
          · exact own_update cfg workers trace _ wpos _ _ hw t1 (by simp [Event.owner])
              (by simp [Worker.events, hbody])
          · simp only
            rw [mainEvents_owned _ _ wpos (by simp [Event.owner]), t2]
            exact mainExpected_congr cfg _ _ rfl (by simp) rfl
          · simpa [List.countP_append, Event.isAcquire, Event.isRelease] using t3
          · subst e
            simpa [lookups, hs, List.filterMap_append, Event.lookupKey, List.filter_append,
              List.filter_cons, Worker.started, Worker.key] using t4
        · simp at h
    | releasing =>
      simp only at h
      split at h
      · rename_i hsem
        simp only [Option.some.injEq] at h
        subst h
        refine ⟨?_, ?_, ?_, ?_⟩
        · exact own_update cfg workers trace _ wpos _ _ hw t1 (by simp [Event.owner])
            (by simp [Worker.events])
        · simp only
          rw [mainEvents_owned _ _ wpos (by simp [Event.owner]), t2]
          exact mainExpected_congr cfg _ _ rfl (by simp) rfl
        · simp [List.countP_append, Event.isAcquire, Event.isRelease] at t3 ⊢
          omega
        · subst e
          simpa [lookups, hs, List.filterMap_append, Event.lookupKey, List.filter_append,
            List.filter_cons, Worker.started, Worker.key] using t4
      · simp at h
    | finishing =>
      simp only at h
      split at h
      · simp only [Option.some.injEq] at h
        subst h
        simp at hnp
      · simp only [Option.some.injEq] at h
        subst h
        refine ⟨?_, ?_, ?_, ?_⟩
        · exact own_update cfg workers trace _ wpos _ _ hw t1 (by simp [Event.owner])
            (by simp [Worker.events])
        · simp only
          rw [mainEvents_owned _ _ wpos (by simp [Event.owner]), t2]
          exact mainExpected_congr cfg _ _ rfl (by simp) rfl
        · simpa [List.countP_append, Event.isAcquire, Event.isRelease] using t3
        · subst e
          simpa [lookups, hs, List.filterMap_append, Event.lookupKey, List.filter_append,
            List.filter_cons, Worker.started, Worker.key] using t4
    | exited => simp at h

theorem traceInv_step (cfg : Config) (s s' : State) (a : Action) (hI : Inv cfg s)
    (hT : TraceInv cfg s) (h : step cfg s a = some s') : TraceInv cfg s' := by
  unfold step at h
  simp only [hI.noPanic, Bool.false_eq_true, if_false] at h
  cases a with
  | main => exact traceInv_stepMain cfg s s' hI hT h
  | worker p => exact traceInv_stepWorker cfg s s' p hI hT h

theorem reachable_traceInv (cfg : Config) (s : State) (h : Reachable cfg s) :
    TraceInv cfg s := by
  induction h with
  | init => exact traceInv_init cfg
  | step a hr hs ih => exact traceInv_step cfg _ _ a (reachable_inv cfg _ hr) ih hs

/-! ## Bounded concurrency -/

theorem returnValue_eq_some (s : State) (r : List User) :
    returnValue s = some r ↔ s.pc = .returned ∧ s.users = r := by
  unfold returnValue
  split
  · rename_i h
    simp [h]
  · rename_i h
    constructor
    · intro hh
      simp at hh
    · intro hh
      exact absurd hh.1 h

theorem inv_inflight_le (cfg : Config) (s : State) (hI : Inv cfg s) :
    inflight s ≤ MaxConcurrentFetches := by
  have h3 := hI.semEq
  have h4 := hI.semLe
  unfold inflight
  omega

/-- C1: in every reachable state of a call at most `MaxConcurrentFetches = 5`
workers are launched and have not yet released their semaphore slot; while 5
are in flight the acquire of line 70 is not enabled, and the launch of line 71
only ever happens with fewer than 5 in flight. -/
theorem inflight_le_max (cfg : Config) (s : State) (h : Reachable cfg s) :
    MaxConcurrentFetches = 5 ∧ inflight s ≤ MaxConcurrentFetches ∧
    (∀ i id, s.pc = .acquire i id → inflight s = MaxConcurrentFetches →
      step cfg s .main = none) ∧
    (∀ i id, s.pc = .spawn i id → inflight s < MaxConcurrentFetches) := by
  have hI := reachable_inv cfg s h
  have h3 := hI.semEq
  have h4 := hI.semLe
  refine ⟨rfl, ?_, ?_, ?_⟩
  · unfold inflight
    omega
  · intro i id hpc hfull
    unfold inflight at hfull
    have : ¬ s.semaphore < MaxConcurrentFetches := by
      simp only [hpc, MainPC.pendingSlot] at h3
      omega
    simp [step, hI.noPanic, stepMain, hpc, this]
  · intro i id hpc
    unfold inflight
    simp only [hpc, MainPC.pendingSlot] at h3
    omega

/-- Witness for C1: with six identifiers, after the fifth launch the main
thread stands at the sixth acquire with five workers in flight. -/
theorem inflight_le_max_witness :
    exec sixCfg sixSched = some ((exec sixCfg sixSched).getD initState) ∧
    inflight ((exec sixCfg sixSched).getD initState) = 5 ∧
    step sixCfg ((exec sixCfg sixSched).getD initState) .main = none :=
  have hr : exec sixCfg sixSched = some ((exec sixCfg sixSched).getD initState) := by decide
  have hc := inflight_le_max sixCfg _ (reachable_exec sixCfg sixSched _ hr)
  ⟨hr, by decide, hc.2.2.1 5 6 (by decide) (by decide)⟩

/-! ## The returned records -/

theorem all_exited (l : List Worker) (h : l.countP Worker.running = 0) :
    ∀ w ∈ l, w.pc = .exited := by
  intro w hw
  rw [List.countP_eq_zero] at h
  have := h w hw
  obtain ⟨wpos, wid, wpc⟩ := w
  cases wpc <;> simp_all [Worker.running]

theorem delivered_of_exited (cfg : Config) (l : List Worker) (h : ∀ w ∈ l, w.pc = .exited) :
    l.filterMap (Worker.delivered cfg) =
      (l.map Worker.key).filterMap (fun q => lookupRecord cfg q.1 q.2) := by
  induction l with
  | nil => rfl
  | cons w rest ih =>
    have hw := h w (by simp)
    have hr := ih (fun x hx => h x (by simp [hx]))
    simp only [List.filterMap_cons, List.map_cons, hr, Worker.key, Worker.delivered, hw]

theorem returned_state (cfg : Config) (s : State) (hI : Inv cfg s) (hret : s.pc = .returned) :
    s.workers.length = cfg.userIDs.length ∧ s.closed = true ∧
      s.workers.countP Worker.running = 0 ∧ s.results = [] := by
  have h8 := hI.atPc
  unfold pcInv at h8
  simpa [hret] using h8

theorem returned_keys (cfg : Config) (s : State) (hI : Inv cfg s) (hret : s.pc = .returned) :
    s.workers.map Worker.key = cfg.userIDs.enum := by
  have h := hI.shape
  rw [(returned_state cfg s hI hret).1] at h
  rw [h]
  apply List.take_of_length_le
  simp [List.enum]

theorem returned_users_perm (cfg : Config) (s : State) (hI : Inv cfg s)
    (hret : s.pc = .returned) : s.users.Perm (successes cfg) := by
  obtain ⟨_, _, hrun, hres⟩ := returned_state cfg s hI hret
  have h7 := hI.collected
  rw [hres, List.append_nil, delivered_of_exited cfg _ (all_exited _ hrun),
    returned_keys cfg s hI hret] at h7
  exact h7

theorem successes_of_all (cfg : Config) (r : Nat × Int → User)
    (h : ∀ q ∈ cfg.userIDs.enum, lookupRecord cfg q.1 q.2 = some (r q)) :
    successes cfg = cfg.userIDs.enum.map r := by
  unfold successes
  generalize cfg.userIDs.enum = l at h
  induction l with
  | nil => rfl
  | cons q rest ih =>
    simp only [List.filterMap_cons, h q (by simp), List.map_cons]
    rw [ih (fun x hx => h x (by simp [hx]))]

theorem map_snd_enum (l : List Int) : l.enum.map Prod.snd = l := by
  simp [List.enum]

theorem sortByID_eq (us : List User) (ids : List Int) (r : Int → User)
    (hp : us.Perm (ids.map r)) (hid : ∀ id ∈ ids, (r id).ID = id) :
    sortByID us = (sortedIDs ids).map r := by
  have hmem : ∀ u ∈ sortByID us, r u.ID = u := by
    intro u hu
    have hu1 : u ∈ us := (List.perm_insertionSort _ us).subset hu
    have hu2 : u ∈ ids.map r := hp.subset hu1
    obtain ⟨id, hi, rfl⟩ := List.mem_map.1 hu2
    rw [hid id hi]
  have hkeys : (sortByID us).map User.ID = sortedIDs ids := by
    have hsorted : ((sortByID us).map User.ID).Sorted (fun a b : Int => a ≤ b) := by
      have hs : (sortByID us).Sorted (fun a b : User => a.ID ≤ b.ID) := by
        haveI : IsTotal User (fun a b : User => a.ID ≤ b.ID) := ⟨fun a b => le_total a.ID b.ID⟩
        haveI : IsTrans User (fun a b : User => a.ID ≤ b.ID) :=
          ⟨fun a b c hab hbc => le_trans hab hbc⟩
        exact List.sorted_insertionSort _ us
      unfold List.Sorted at hs ⊢
      rw [List.pairwise_map]
      exact hs
    have hperm : ((sortByID us).map User.ID).Perm (sortedIDs ids) := by
      have h1 : ((sortByID us).map User.ID).Perm (us.map User.ID) :=
        (List.perm_insertionSort _ us).map _
      have h2 : (us.map User.ID).Perm ((ids.map r).map User.ID) := hp.map _
      have h3 : (ids.map r).map User.ID = ids := by
        rw [List.map_map]
        conv_rhs => rw [← List.map_id ids]
        apply List.map_congr_left
        intro id hi
        simp [hid id hi]
      rw [h3] at h2
      exact (h1.trans h2).trans (List.perm_insertionSort _ ids).symm
    exact List.eq_of_perm_of_sorted hperm hsorted (List.sorted_insertionSort _ ids)
  rw [← hkeys, List.map_map]
  conv_lhs => rw [← List.map_id (sortByID us)]
  apply List.map_congr_left
  intro u hu
  simp [hmem u hu]

/-- C2 (amended): when the call has returned, the returned slice is a
permutation of the records of exactly the successful lookups, one per input
position; when every lookup succeeds it has `len(ids)` records; and when the
source answers every lookup of an identifier with one record carrying that
identifier, the slice sorted by `ID` is the list of the source's records for
the identifiers in increasing order. -/
theorem result_perm_successes (cfg : Config) (s : State) (h : Reachable cfg s)
    (hret : s.pc = .returned) :
    s.users.Perm (successes cfg) ∧
    ((∀ q ∈ cfg.userIDs.enum, (lookupRecord cfg q.1 q.2).isSome) →
      s.users.length = cfg.userIDs.length) ∧
    (∀ r : Int → User,
      (∀ q ∈ cfg.userIDs.enum, lookupRecord cfg q.1 q.2 = some (r q.2)) →
      (∀ id ∈ cfg.userIDs, (r id).ID = id) →
      sortByID s.users = (sortedIDs cfg.userIDs).map r) := by
  have hI := reachable_inv cfg s h
  have hp := returned_users_perm cfg s hI hret
  refine ⟨hp, ?_, ?_⟩
  · intro hall
    have hs : successes cfg =
        cfg.userIDs.enum.map (fun q => (lookupRecord cfg q.1 q.2).getD (userOf 0)) := by
      apply successes_of_all
      intro q hq
      have := hall q hq
      cases hl : lookupRecord cfg q.1 q.2 with
      | none => simp [hl] at this
      | some u => simp
    rw [hp.length_eq, hs]
    simp [List.enum]
  · intro r hall hid
    have hs : successes cfg = cfg.userIDs.map r := by
      rw [successes_of_all cfg (fun q => r q.2) hall]
      conv_rhs => rw [← map_snd_enum cfg.userIDs]
      rw [List.map_map]
      rfl
    rw [hs] at hp
    exact sortByID_eq s.users cfg.userIDs r hp hid

/-- Witness for C2: in the run of `mixedCfg` the third worker delivers first;
the returned slice holds the records of the lookups of `3` and `1`, not the
failed lookup of `2`. -/
theorem result_perm_successes_witness :
    returnValue ((exec mixedCfg mixedSched).getD initState) = some [userOf 3, userOf 1] ∧
    successes mixedCfg = [userOf 1, userOf 3] ∧
    ((exec mixedCfg mixedSched).getD initState).users.Perm (successes mixedCfg) :=
  have hr : exec mixedCfg mixedSched = some ((exec mixedCfg mixedSched).getD initState) := by
    decide
  ⟨by decide, by decide,
    (result_perm_successes mixedCfg _ (reachable_exec mixedCfg mixedSched _ hr)
      (by decide)).1⟩

/-- Counterexample to C2 as stated: against `swapCfg` every lookup succeeds,
the call returns the records of `2` and `1`, and sorted by `ID` they are not
the source's records for the identifiers `1, 2` in that order. -/
theorem sorted_result_counterexample :
    returnValue ((exec swapCfg swapSched).getD initState) = some [userOf 2, userOf 1] ∧
    (∀ q ∈ swapCfg.userIDs.enum, (lookupRecord swapCfg q.1 q.2).isSome) ∧
    (sortByID [userOf 2, userOf 1]).map some = [some (userOf 1), some (userOf 2)] ∧
    (sortedIDs swapCfg.userIDs).map (fun id => lookupRecord swapCfg 0 id) =
      [some (userOf 2), some (userOf 1)] ∧
    (sortByID ((exec swapCfg swapSched).getD initState).users).map some ≠
      (sortedIDs swapCfg.userIDs).map (fun id => lookupRecord swapCfg 0 id) := by
  refine ⟨by decide, by decide, by decide, by decide, by decide⟩

theorem lookupRecord_eq_some (cfg : Config) (p : Nat) (id : Int) (u : User) :
    lookupRecord cfg p id = some u ↔
      ∃ body, cfg.source p id = .http StatusOK body ∧ cfg.decode body = some u := by
  unfold lookupRecord
  cases hs : cfg.source p id with
  | transportError => simp [fetchOutcome, FetchResult.record]
  | http code body =>
    by_cases hc : code = StatusOK
    · subst hc
      cases hd : cfg.decode body with
      | none => simp [fetchOutcome, FetchResult.record, hd]
      | some v => simp [fetchOutcome, FetchResult.record, hd]
    · simp [fetchOutcome, hc, FetchResult.record]

/-- C3 (amended): every record collected by the call is, field for field, the
record decoded from the 200 response of the Record Source to the lookup issued
for some input position; its `ID` is an element of `ids` whenever the source
only returns records carrying the requested identifier. -/
theorem result_records_from_source (cfg : Config) (s : State) (h : Reachable cfg s) :
    (∀ u ∈ s.users, ∃ p id body, cfg.userIDs[p]? = some id ∧
      cfg.source p id = .http StatusOK body ∧ cfg.decode body = some u) ∧
    ((∀ p id u, lookupRecord cfg p id = some u → u.ID = id) →
      ∀ u ∈ s.users, u.ID ∈ cfg.userIDs) := by
  have hI := reachable_inv cfg s h
  have key : ∀ u ∈ s.users, ∃ p id, cfg.userIDs[p]? = some id ∧
      lookupRecord cfg p id = some u := by
    intro u hu
    have hm : u ∈ s.workers.filterMap (Worker.delivered cfg) :=
      hI.collected.subset (List.mem_append_left _ hu)
    obtain ⟨w, hw, hd⟩ := List.mem_filterMap.1 hm
    obtain ⟨p, hp⟩ := List.getElem?_of_mem hw
    obtain ⟨hpos, hid⟩ := shape_get cfg s hI p w hp
    refine ⟨p, w.id, hid, ?_⟩
    obtain ⟨wpos, wid, wpc⟩ := w
    simp only at hpos
    subst hpos
    cases wpc <;> simp_all [Worker.delivered]
  refine ⟨?_, ?_⟩
  · intro u hu
    obtain ⟨p, id, hid, hl⟩ := key u hu
    obtain ⟨body, hb, hd⟩ := (lookupRecord_eq_some cfg p id u).1 hl
    exact ⟨p, id, body, hid, hb, hd⟩
  · intro hecho u hu
    obtain ⟨p, id, hid, hl⟩ := key u hu
    rw [hecho p id u hl]
    exact List.getElem?_mem hid

/-- Witness for C3: the records returned by the run of `mixedCfg`. -/
theorem result_records_from_source_witness :
    userOf 3 ∈ ((exec mixedCfg mixedSched).getD initState).users ∧
    ∃ p id body, mixedCfg.userIDs[p]? = some id ∧
      mixedCfg.source p id = .http StatusOK body ∧ mixedCfg.decode body = some (userOf 3) :=
  have hr : exec mixedCfg mixedSched = some ((exec mixedCfg mixedSched).getD initState) := by
    decide
  ⟨by decide,
    (result_records_from_source mixedCfg _ (reachable_exec mixedCfg mixedSched _ hr)).1
      (userOf 3) (by decide)⟩

/-- Counterexample to C3 as stated: for the input `[1]` against a source that
answers with the record of `2`, the call returns a record whose `ID` is not an
element of the input. -/
theorem stray_id_counterexample :
    strayCfg.userIDs = [1] ∧
    returnValue ((exec strayCfg straySched).getD initState) = some [userOf 2] ∧
    ¬ (∀ u ∈ ((exec strayCfg straySched).getD initState).users, u.ID ∈ strayCfg.userIDs) := by
  refine ⟨rfl, by decide, by decide⟩

/-! ## Failure isolation -/

theorem delivered_none_of_fail (cfg : Config) (s : State) (hI : Inv cfg s)
    (hfail : ∀ p id, cfg.userIDs[p]? = some id →
      ∃ f, fetchOutcome cfg.decode (cfg.source p id) = .failed f) :
    s.workers.filterMap (Worker.delivered cfg) = [] := by
  rw [List.filterMap_eq_nil_iff]
  intro w hw
  obtain ⟨p, hp⟩ := List.getElem?_of_mem hw
  obtain ⟨hpos, hid⟩ := shape_get cfg s hI p w hp
  obtain ⟨f, hf⟩ := hfail p w.id hid
  obtain ⟨wpos, wid, wpc⟩ := w
  simp only at hpos hf
  subst hpos
  cases wpc <;> simp [Worker.delivered, lookupRecord, hf, FetchResult.record]

/-- C4: when the Record Source fails every lookup of the input (transport
error, status other than 200, or undecodable body), no reachable state has
panicked or holds a collected record, a returned call has returned a slice of
length 0, from every reachable state some schedule runs the call to its
return with the empty result, and no schedule is longer than the measure of
the state it starts from. -/
theorem all_fail_returns_empty (cfg : Config)
    (hfail : ∀ p id, cfg.userIDs[p]? = some id →
      ∃ f, fetchOutcome cfg.decode (cfg.source p id) = .failed f)
    (s : State) (h : Reachable cfg s) :
    s.panicked = false ∧ s.users = [] ∧
    (∀ r, returnValue s = some r → r.length = 0) ∧
    (∃ sched s', execFrom cfg s sched = some s' ∧ returnValue s' = some []) ∧
    (∀ sched s', execFrom cfg s sched = some s' → sched.length ≤ fuel cfg s) := by
  have hI := reachable_inv cfg s h
  have hempty : ∀ t, Reachable cfg t → t.users = [] := by
    intro t ht
    have hIt := reachable_inv cfg t ht
    have h7 := hIt.collected
    rw [delivered_none_of_fail cfg t hIt hfail] at h7
    have := h7.length_eq
    simp only [List.length_append, List.length_nil] at this
    exact List.eq_nil_of_length_eq_zero (by omega)
  refine ⟨hI.noPanic, hempty s h, ?_, ?_, ?_⟩
  · intro r hr
    obtain ⟨_, hu⟩ := (returnValue_eq_some s r).1 hr
    rw [← hu, hempty s h]
    rfl
  · obtain ⟨sched, s', hs', hpc⟩ := inv_completes cfg (fuel cfg s) s hI (le_refl _)
    refine ⟨sched, s', hs', ?_⟩
    rw [returnValue_eq_some]
    exact ⟨hpc, hempty s' (reachable_execFrom cfg sched s s' h hs')⟩
  · intro sched s' hs'
    have := execFrom_length_le cfg sched s s' hI hs'
    omega

/-- Witness for C4: the scenario of `TestFetchAllUsersInfo_ErrorHandling`. -/
theorem all_fail_returns_empty_witness :
    failCfg.userIDs = [1, 2, 3] ∧
    returnValue ((exec failCfg failSched).getD initState) = some [] ∧
    ((exec failCfg failSched).getD initState).panicked = false :=
  have hr : exec failCfg failSched = some ((exec failCfg failSched).getD initState) := by
    decide
  ⟨rfl, by decide,
    (all_fail_returns_empty failCfg (fun _ _ _ => ⟨.status 500, rfl⟩) _
      (reachable_exec failCfg failSched _ hr)).1⟩

/-! ## Empty input -/

theorem countP_isAcquire_main (tr : List Event) :
    tr.countP Event.isAcquire = (mainEvents tr).countP Event.isAcquire := by
  induction tr with
  | nil => rfl
  | cons e rest ih =>
    cases e <;>
      simp [mainEvents, List.filter_cons, List.countP_cons, Event.isAcquire, Event.owner] <;>
      simpa [mainEvents] using ih

theorem countP_isAcquire_submit (l : List (Nat × Int)) :
    (l.flatMap submitEvents).countP Event.isAcquire = l.length := by
  induction l with
  | nil => rfl
  | cons q rest ih =>
    simp only [List.flatMap_cons, List.countP_append, ih, List.length_cons]
    simp [submitEvents, List.countP_cons, Event.isAcquire]
    omega

/-- C5: on the empty input no reachable state has a launched worker, an
acquired semaphore slot or an issued lookup, a returned call has returned the
empty slice, and the call does return: five steps of the main thread take it
from its first line to `return`. -/
theorem empty_input (cfg : Config) (hids : cfg.userIDs = []) (s : State)
    (h : Reachable cfg s) :
    s.workers = [] ∧ launched s = [] ∧
    s.trace.countP Event.isAcquire = 0 ∧ s.semaphore = 0 ∧
    lookups s = [] ∧
    (∀ r, returnValue s = some r → r = []) ∧
    (exec cfg (List.replicate 5 .main)).map returnValue = some (some []) := by
  have hI := reachable_inv cfg s h
  have hT := reachable_traceInv cfg s h
  have hlen := inv_length_le cfg s hI
  have hw : s.workers = [] := by
    apply List.eq_nil_of_length_eq_zero
    simp only [hids, List.length_nil] at hlen
    omega
  have hslot : s.pc.pendingSlot = 0 ∧ (∀ i id, s.pc ≠ .acquire i id) := by
    have h8 := hI.atPc
    unfold pcInv at h8
    cases hpc : s.pc with
    | acquire i id =>
      rw [hpc] at h8
      have := h8.2.1
      simp [hids] at this
    | spawn i id =>
      rw [hpc] at h8
      have := h8.2.1
      simp [hids] at this
    | _ => simp [MainPC.pendingSlot]
  have hsem : s.semaphore = 0 := by
    have h3 := hI.semEq
    rw [hw, hslot.1] at h3
    simpa using h3
  have hacq : s.trace.countP Event.isAcquire = 0 := by
    rw [countP_isAcquire_main, hT.mainT]
    unfold mainExpected
    rw [hw]
    cases hpc : s.pc with
    | acquire i id => exact absurd hpc (hslot.2 i id)
    | spawn i id => simp [hpc, MainPC.pendingSlot] at hslot
    | _ => simp [List.countP_cons, Event.isAcquire]
  have hlook : lookups s = [] := by
    have := hT.issued
    rw [hw] at this
    simpa using this
  have husers : s.users = [] := by
    have h7 := hI.collected.length_eq
    rw [hw] at h7
    simp only [List.length_append, List.filterMap_nil, List.length_nil] at h7
    exact List.eq_nil_of_length_eq_zero (by omega)
  refine ⟨hw, by simp [launched, hw], hacq, hsem, hlook, ?_, ?_⟩
  · intro r hr
    obtain ⟨_, hu⟩ := (returnValue_eq_some s r).1 hr
    rw [← hu, husers]
  · obtain ⟨ids, src, dec⟩ := cfg
    simp only at hids
    subst hids
    rfl

/-- Witness for C5: the run on the empty input. -/
theorem empty_input_witness :
    emptyCfg.userIDs = [] ∧
    returnValue ((exec emptyCfg emptySched).getD initState) = some [] ∧
    ((exec emptyCfg emptySched).getD initState).workers = [] ∧
    lookups ((exec emptyCfg emptySched).getD initState) = [] :=
  have hr : exec emptyCfg emptySched = some ((exec emptyCfg emptySched).getD initState) := by
    decide
  have hc := empty_input emptyCfg rfl _ (reachable_exec emptyCfg emptySched _ hr)
  ⟨rfl, by decide, hc.1, hc.2.2.2.2.1⟩

/-! ## What one worker does -/

theorem sentBy_owned (p : Nat) (tr : List Event) : sentBy p tr = sentBy p (ownedBy p tr) := by
  induction tr with
  | nil => rfl
  | cons e rest ih =>
    unfold sentBy ownedBy at ih ⊢
    cases e with
    | send q u =>
      by_cases hq : q = p
      · simp [List.filter_cons, List.filterMap_cons, Event.owner, hq, ih]
      · simp [List.filter_cons, List.filterMap_cons, Event.owner, hq, ih]
    | lookup q id =>
      by_cases hq : q = p <;>
        simp [List.filter_cons, List.filterMap_cons, Event.owner, hq, ih]
    | diag q id f =>
      by_cases hq : q = p <;>
        simp [List.filter_cons, List.filterMap_cons, Event.owner, hq, ih]
    | release q =>
      by_cases hq : q = p <;>
        simp [List.filter_cons, List.filterMap_cons, Event.owner, hq, ih]
    | done q =>
      by_cases hq : q = p <;>
        simp [List.filter_cons, List.filterMap_cons, Event.owner, hq, ih]
    | _ => simp [List.filter_cons, List.filterMap_cons, Event.owner, ih]

theorem sentBy_events (cfg : Config) (w : Worker) :
    sentBy w.pos (w.events cfg) =
      if w.beforeSend then [] else (lookupRecord cfg w.pos w.id).toList := by
  obtain ⟨wpos, wid, wpc⟩ := w
  cases hf : fetchOutcome cfg.decode (cfg.source wpos wid) <;>
    cases wpc <;>
    simp [Worker.events, Worker.beforeSend, sentBy, bodyEvents, lookupRecord, hf,
      FetchResult.record, List.filterMap_cons]

theorem worker_sent (cfg : Config) (s : State) (h : Reachable cfg s) (p : Nat) (w : Worker)
    (hw : s.workers[p]? = some w) :
    sentBy p s.trace = if w.beforeSend then [] else (lookupRecord cfg p w.id).toList := by
  have hI := reachable_inv cfg s h
  have hT := reachable_traceInv cfg s h
  obtain ⟨hpos, -⟩ := shape_get cfg s hI p w hw
  have h1 := hT.own p
  simp only [hw] at h1
  rw [sentBy_owned, h1, ← hpos]
  exact sentBy_events cfg w

theorem worker_advance (cfg : Config) (s : State) (p : Nat) (w : Worker) (hI : Inv cfg s)
    (hw : s.workers[p]? = some w) (hne : w.pc ≠ .exited) :
    ∃ s' w', step cfg s (.worker p) = some s' ∧ s'.workers[p]? = some w' ∧
      w'.pos = w.pos ∧ w'.id = w.id ∧ w'.fuel < w.fuel ∧
      s'.results ++ w'.pendingSend cfg = s.results ++ w.pendingSend cfg := by
  obtain ⟨l1, l2, e, _, _⟩ := split_at s.workers p w hw
  have hlt : p < s.workers.length := (List.getElem?_eq_some.1 hw).1
  have hrun : 0 < s.workers.countP Worker.running := by
    rw [e]
    apply countP_running_pos
    obtain ⟨wpos, wid, wpc⟩ := w
    cases wpc <;> simp_all [Worker.running]
  obtain ⟨hc, hwg⟩ := inv_open_of_running cfg s hI hrun
  have h3 := hI.semEq
  have hsend := hI.sendingOk w (List.getElem?_mem hw)
  simp only [step, hI.noPanic, Bool.false_eq_true, if_false, stepWorker, hw]
  obtain ⟨wpos, wid, wpc⟩ := w
  cases wpc with
  | fetching =>
    simp only
    cases hf : fetchOutcome cfg.decode (cfg.source wpos wid) with
    | ok u =>
      refine ⟨_, ⟨wpos, wid, .sending u⟩, rfl, ?_, rfl, rfl, ?_, ?_⟩
      · simp [List.getElem?_set, hlt]
      · simp [Worker.fuel]
      · simp [Worker.pendingSend, lookupRecord, hf, FetchResult.record]
    | failed f =>
      refine ⟨_, ⟨wpos, wid, .releasing⟩, rfl, ?_, rfl, rfl, ?_, ?_⟩
      · simp [List.getElem?_set, hlt]
      · simp [Worker.fuel]
      · simp [Worker.pendingSend, lookupRecord, hf, FetchResult.record]
  | sending u =>
    have hb : 0 < s.workers.countP Worker.beforeSend := by
      rw [e]; simp [List.countP_append, List.countP_cons, Worker.beforeSend]
    have hroom := inv_results_lt cfg s hI hb
    simp only [hc, Bool.false_eq_true, if_false, hroom, if_true]
    refine ⟨_, ⟨wpos, wid, .releasing⟩, rfl, ?_, rfl, rfl, ?_, ?_⟩
    · simp [List.getElem?_set, hlt]
    · simp [Worker.fuel]
    · simp [Worker.pendingSend]
  | releasing =>
    have hs : 0 < s.semaphore := by
      rw [h3, e]; simp [List.countP_append, List.countP_cons, Worker.holdsSlot]
    simp only [hs, if_true]
    refine ⟨_, ⟨wpos, wid, .finishing⟩, rfl, ?_, rfl, rfl, ?_, ?_⟩
    · simp [List.getElem?_set, hlt]
    · simp [Worker.fuel]
    · simp [Worker.pendingSend]
  | finishing =>
    have hz : s.wg ≠ 0 := by omega
    simp only [hz, if_false]
    refine ⟨_, ⟨wpos, wid, .exited⟩, rfl, ?_, rfl, rfl, ?_, ?_⟩
    · simp [List.getElem?_set, hlt]
    · simp [Worker.fuel]
    · simp [Worker.pendingSend]
  | exited => exact absurd rfl hne

/-- A launched worker scheduled on its own runs to its return in at most as
many steps as its measure, and leaves on the result channel exactly the
records it still had to send. -/
theorem worker_runs_to_exit (cfg : Config) (p : Nat) (n : Nat) :
    ∀ (s : State) (w : Worker), Inv cfg s → s.workers[p]? = some w → w.fuel ≤ n →
      ∃ k s', k ≤ n ∧ execFrom cfg s (List.replicate k (.worker p)) = some s' ∧
        s'.workers[p]? = some { w with pc := .exited } ∧
        s'.results = s.results ++ w.pendingSend cfg := by
  induction n with
  | zero =>
    intro s w _ hw hf
    obtain ⟨wpos, wid, wpc⟩ := w
    cases wpc <;> simp [Worker.fuel] at hf
    exact ⟨0, s, le_refl _, rfl, hw, by simp [Worker.pendingSend]⟩
  | succ n ih =>
    intro s w hI hw hf
    by_cases hne : w.pc = .exited
    · obtain ⟨wpos, wid, wpc⟩ := w
      simp only at hne
      subst hne
      exact ⟨0, s, by omega, rfl, hw, by simp [Worker.pendingSend]⟩
    · obtain ⟨s1, w1, hstep, hw1, hpos, hid, hfuel, hres⟩ := worker_advance cfg s p w hI hw hne
      obtain ⟨k, s2, hk, hexec, hw2, hres2⟩ :=
        ih s1 w1 (inv_step cfg s s1 _ hI hstep) hw1 (by omega)
      refine ⟨k + 1, s2, by omega, ?_, ?_, ?_⟩
      · simp only [List.replicate_succ, execFrom, hstep]
        exact hexec
      · rw [hw2, hpos, hid]
      · rw [hres2, hres]


/-- C6: a launched worker is never blocked and never panics; it has sent
nothing before it reaches line 57; scheduled on its own it runs to its return
in at most four steps, and at its return it has sent a record if and only if
`http.Get` gave no transport error, the status was 200 and the body decoded:
then it has sent exactly the decoded record, and in each of the three failure
cases nothing; a worker that starts from its first line adds exactly that to
the result channel. -/
theorem worker_sends_iff_success (cfg : Config) (s : State) (h : Reachable cfg s) (p : Nat)
    (w : Worker) (hw : s.workers[p]? = some w) :
    (w.pc ≠ .exited → ∃ s', step cfg s (.worker p) = some s' ∧ s'.panicked = false) ∧
    (w.beforeSend = true → sentBy p s.trace = []) ∧
    (w.beforeSend = false →
      (cfg.source p w.id = .transportError → sentBy p s.trace = []) ∧
      (∀ code body, cfg.source p w.id = .http code body → code ≠ StatusOK →
        sentBy p s.trace = []) ∧
      (∀ body, cfg.source p w.id = .http StatusOK body → cfg.decode body = none →
        sentBy p s.trace = []) ∧
      (∀ body u, cfg.source p w.id = .http StatusOK body → cfg.decode body = some u →
        sentBy p s.trace = [u])) ∧
    (∃ k s', k ≤ 4 ∧ execFrom cfg s (List.replicate k (.worker p)) = some s' ∧
      s'.panicked = false ∧ s'.workers[p]? = some { w with pc := .exited } ∧
      ((∃ u, sentBy p s'.trace = [u]) ↔
        ∃ body u, cfg.source p w.id = .http StatusOK body ∧ cfg.decode body = some u) ∧
      (∀ body u, cfg.source p w.id = .http StatusOK body → cfg.decode body = some u →
        sentBy p s'.trace = [u] ∧ (w.pc = .fetching → s'.results = s.results ++ [u])) ∧
      (cfg.source p w.id = .transportError →
        sentBy p s'.trace = [] ∧ (w.pc = .fetching → s'.results = s.results)) ∧
      (∀ code body, cfg.source p w.id = .http code body → code ≠ StatusOK →
        sentBy p s'.trace = [] ∧ (w.pc = .fetching → s'.results = s.results)) ∧
      (∀ body, cfg.source p w.id = .http StatusOK body → cfg.decode body = none →
        sentBy p s'.trace = [] ∧ (w.pc = .fetching → s'.results = s.results))) := by
  have hI := reachable_inv cfg s h
  have hs := worker_sent cfg s h p w hw
  obtain ⟨hpos, -⟩ := shape_get cfg s hI p w hw
  refine ⟨?_, ?_, ?_, ?_⟩
  · intro hne
    obtain ⟨s', hs'⟩ := worker_enabled cfg s p w hI hw hne
    exact ⟨s', hs', (inv_step cfg s s' _ hI hs').noPanic⟩
  · intro hb
    simpa [hb] using hs
  · intro hb
    simp only [hb, Bool.false_eq_true, if_false] at hs
    refine ⟨?_, ?_, ?_, ?_⟩
    · intro hsrc
      simpa [lookupRecord, hsrc, fetchOutcome, FetchResult.record] using hs
    · intro code body hsrc hcode
      simpa [lookupRecord, hsrc, fetchOutcome, FetchResult.record, hcode] using hs
    · intro body hsrc hdec
      simpa [lookupRecord, hsrc, fetchOutcome, FetchResult.record, hdec] using hs
    · intro body u hsrc hdec
      simpa [lookupRecord, hsrc, fetchOutcome, FetchResult.record, hdec] using hs
  · have hfuel : w.fuel ≤ 4 := by
      obtain ⟨wpos, wid, wpc⟩ := w
      cases wpc <;> simp [Worker.fuel]
    obtain ⟨k, s', hk, hexec, hw', hres⟩ := worker_runs_to_exit cfg p 4 s w hI hw hfuel
    have hreach := reachable_execFrom cfg _ s s' h hexec
    have hsent := worker_sent cfg s' hreach p _ hw'
    simp only [Worker.beforeSend, Bool.false_eq_true, if_false] at hsent
    have hadd : w.pc = .fetching → s'.results = s.results ++ (lookupRecord cfg p w.id).toList := by
      intro hpc
      rw [hres]
      obtain ⟨wpos, wid, wpc⟩ := w
      simp only at hpc hpos
      subst hpc
      subst hpos
      rfl
    refine ⟨k, s', hk, hexec, (reachable_inv cfg s' hreach).noPanic, hw', ?_, ?_, ?_, ?_, ?_⟩
    · rw [hsent]
      constructor
      · rintro ⟨u, hu⟩
        cases hl : lookupRecord cfg p w.id with
        | none => simp [hl] at hu
        | some v =>
          obtain ⟨body, hb, hd⟩ := (lookupRecord_eq_some cfg p w.id v).1 hl
          exact ⟨body, v, hb, hd⟩
      · rintro ⟨body, u, hsrc, hdec⟩
        exact ⟨u, by rw [(lookupRecord_eq_some cfg p w.id u).2 ⟨body, hsrc, hdec⟩]; rfl⟩
    · intro body u hsrc hdec
      have hl := (lookupRecord_eq_some cfg p w.id u).2 ⟨body, hsrc, hdec⟩
      rw [hl] at hsent hadd
      exact ⟨hsent, hadd⟩
    · intro hsrc
      have hl : lookupRecord cfg p w.id = none := by
        simp [lookupRecord, hsrc, fetchOutcome, FetchResult.record]
      rw [hl] at hsent hadd
      exact ⟨hsent, by simpa using hadd⟩
    · intro code body hsrc hcode
      have hl : lookupRecord cfg p w.id = none := by
        simp [lookupRecord, hsrc, fetchOutcome, FetchResult.record, hcode]
      rw [hl] at hsent hadd
      exact ⟨hsent, by simpa using hadd⟩
    · intro body hsrc hdec
      have hl : lookupRecord cfg p w.id = none := by
        simp [lookupRecord, hsrc, fetchOutcome, FetchResult.record, hdec]
      rw [hl] at hsent hadd
      exact ⟨hsent, by simpa using hadd⟩

/-- Witness for C6: in `mixedCfg`, once the three workers are launched, the
worker of position 0 (status 200, decodable body) run on its own returns after
four steps and has put its record on the result channel; the worker of
position 1 (status 500) returns after three steps and has put nothing. -/
theorem worker_sends_iff_success_witness :
    (execFrom mixedCfg ((exec mixedCfg (List.replicate 10 .main)).getD initState)
        (List.replicate 4 (.worker 0))).map (fun t => (t.results, sentBy 0 t.trace)) =
      some ([userOf 1], [userOf 1]) ∧
    (execFrom mixedCfg ((exec mixedCfg (List.replicate 10 .main)).getD initState)
        (List.replicate 3 (.worker 1))).map (fun t => (t.results, sentBy 1 t.trace)) =
      some ([], []) ∧
    ∃ k s', k ≤ 4 ∧
      execFrom mixedCfg ((exec mixedCfg (List.replicate 10 .main)).getD initState)
        (List.replicate k (.worker 0)) = some s' ∧
      s'.panicked = false ∧ sentBy 0 s'.trace = [userOf 1] :=
  have hr : exec mixedCfg (List.replicate 10 .main) =
      some ((exec mixedCfg (List.replicate 10 .main)).getD initState) := by decide
  have hc := (worker_sends_iff_success mixedCfg _
    (reachable_exec mixedCfg (List.replicate 10 .main) _ hr) 0 ⟨0, 1, .fetching⟩
    (by decide)).2.2.2
  ⟨by decide, by decide,
    match hc with
    | ⟨k, s', hk, hexec, hnp, _, _, hok, _⟩ =>
      ⟨k, s', hk, hexec, hnp, (hok "1" (userOf 1) rfl (by decide)).1⟩⟩

/-! ## Semaphore accounting -/

theorem count_owned (p : Nat) (e : Event) (he : e.owner = some p) (tr : List Event) :
    tr.count e = (ownedBy p tr).count e := by
  unfold ownedBy
  rw [List.count_filter]
  simp [he]

theorem count_release_events (cfg : Config) (w : Worker) :
    (w.events cfg).count (.release w.pos) = if w.holdsSlot then 0 else 1 := by
  obtain ⟨wpos, wid, wpc⟩ := w
  cases hf : fetchOutcome cfg.decode (cfg.source wpos wid) <;>
    cases wpc <;>
    simp [Worker.events, Worker.holdsSlot, bodyEvents, hf, List.count_cons]

/-- C7: a launched worker has received from the semaphore exactly once as
soon as it no longer holds its slot (in particular when it has exited) and
not at all before, whatever the outcome of its lookup; the number of tokens in
the semaphore is always the number of acquisitions minus the number of
releases; and when the call has returned the semaphore is empty, every worker
has exited, and there have been `len(ids)` acquisitions and as many releases. -/
theorem slot_released_once (cfg : Config) (s : State) (h : Reachable cfg s) :
    (∀ p w, s.workers[p]? = some w →
      s.trace.count (.release p) = if w.holdsSlot then 0 else 1) ∧
    (∀ p w, s.workers[p]? = some w → w.pc = .exited → s.trace.count (.release p) = 1) ∧
    s.trace.countP Event.isAcquire = s.trace.countP Event.isRelease + s.semaphore ∧
    (s.pc = .returned →
      s.semaphore = 0 ∧ (∀ w ∈ s.workers, w.pc = .exited) ∧
      s.trace.countP Event.isAcquire = cfg.userIDs.length ∧
      s.trace.countP Event.isRelease = cfg.userIDs.length) := by
  have hI := reachable_inv cfg s h
  have hT := reachable_traceInv cfg s h
  have key : ∀ p w, s.workers[p]? = some w →
      s.trace.count (.release p) = if w.holdsSlot then 0 else 1 := by
    intro p w hw
    obtain ⟨hpos, -⟩ := shape_get cfg s hI p w hw
    have h1 := hT.own p
    simp only [hw] at h1
    rw [count_owned p (.release p) rfl, h1, ← hpos]
    exact count_release_events cfg w
  refine ⟨key, ?_, hT.balance, ?_⟩
  · intro p w hw hpc
    rw [key p w hw]
    simp [Worker.holdsSlot, hpc]
  · intro hret
    obtain ⟨hlen, _, hrun, _⟩ := returned_state cfg s hI hret
    have hex := all_exited _ hrun
    have hsem : s.semaphore = 0 := by
      have h3 := hI.semEq
      have : s.workers.countP Worker.holdsSlot = 0 := by
        rw [List.countP_eq_zero]
        intro w hw
        simp [Worker.holdsSlot, hex w hw]
      rw [this, hret] at h3
      simpa [MainPC.pendingSlot] using h3
    have hacq : s.trace.countP Event.isAcquire = cfg.userIDs.length := by
      rw [countP_isAcquire_main, hT.mainT]
      unfold mainExpected
      rw [hret, hlen, List.countP_append, countP_isAcquire_submit]
      simp [List.countP_cons, Event.isAcquire, List.enum]
    have hb := hT.balance
    refine ⟨hsem, hex, hacq, ?_⟩
    omega

/-- Witness for C7: at the end of the run of `mixedCfg` the worker whose
lookup failed has released its slot once, and the semaphore is empty. -/
theorem slot_released_once_witness :
    ((exec mixedCfg mixedSched).getD initState).trace.count (.release 1) = 1 ∧
    ((exec mixedCfg mixedSched).getD initState).semaphore = 0 :=
  have hr : exec mixedCfg mixedSched = some ((exec mixedCfg mixedSched).getD initState) := by
    decide
  have hc := slot_released_once mixedCfg _ (reachable_exec mixedCfg mixedSched _ hr)
  ⟨hc.2.1 1 ⟨1, 2, .exited⟩ (by decide) rfl, (hc.2.2.2 (by decide)).1⟩

/-! ## Submission order -/

theorem launched_eq_take (cfg : Config) (s : State) (hI : Inv cfg s) :
    launched s = cfg.userIDs.take s.workers.length := by
  have h := congrArg (List.map Prod.snd) hI.shape
  rw [List.map_map, List.map_take, map_snd_enum] at h
  rw [← h]
  rfl

/-- C8: in every reachable state the identifiers for which a goroutine has
been launched are the first `k` identifiers of the input, in input order, and
the events of the main thread are the complete iterations add, acquire, launch
for the positions `0 .. k-1` in this order followed by the part of iteration
`k` already done; when the call has returned, the launched identifiers are
the whole input and the lookups issued are exactly one per input position. -/
theorem launched_in_input_order (cfg : Config) (s : State) (h : Reachable cfg s) :
    launched s = cfg.userIDs.take s.workers.length ∧
    launched s <+: cfg.userIDs ∧
    mainEvents s.trace = mainExpected cfg s ∧
    (s.pc = .returned →
      launched s = cfg.userIDs ∧ (lookups s).Perm cfg.userIDs.enum ∧
      (lookups s).length = cfg.userIDs.length) := by
  have hI := reachable_inv cfg s h
  have hT := reachable_traceInv cfg s h
  have hl := launched_eq_take cfg s hI
  refine ⟨hl, by rw [hl]; exact List.take_prefix _ _, hT.mainT, ?_⟩
  intro hret
  obtain ⟨hlen, _, hrun, _⟩ := returned_state cfg s hI hret
  have hex := all_exited _ hrun
  have hfil : s.workers.filter Worker.started = s.workers := by
    rw [List.filter_eq_self]
    intro w hw
    simp [Worker.started, hex w hw]
  have hp : (lookups s).Perm cfg.userIDs.enum := by
    have := hT.issued
    rwa [hfil, returned_keys cfg s hI hret] at this
  refine ⟨by rw [hl, hlen, List.take_length], hp, ?_⟩
  rw [hp.length_eq]
  simp [List.enum]

/-- Witness for C8: the launches and lookups of the run of `mixedCfg`. -/
theorem launched_in_input_order_witness :
    launched ((exec mixedCfg mixedSched).getD initState) = [1, 2, 3] ∧
    lookups ((exec mixedCfg mixedSched).getD initState) = [(2, 3), (1, 2), (0, 1)] ∧
    (lookups ((exec mixedCfg mixedSched).getD initState)).Perm mixedCfg.userIDs.enum :=
  have hr : exec mixedCfg mixedSched = some ((exec mixedCfg mixedSched).getD initState) := by
    decide
  have hc := launched_in_input_order mixedCfg _ (reachable_exec mixedCfg mixedSched _ hr)
  ⟨by decide, by decide, (hc.2.2.2 (by decide)).2.1⟩

/-! ## Two concurrent calls -/

theorem reachable2_components (cfgA cfgB : Config) (s : State × State)
    (h : Reachable2 cfgA cfgB s) : Reachable cfgA s.1 ∧ Reachable cfgB s.2 := by
  induction h with
  | init => exact ⟨Reachable.init, Reachable.init⟩
  | step a _ hs ih =>
    rename_i t t'
    cases a with
    | inl x =>
      simp only [step2, Option.map_eq_some'] at hs
      obtain ⟨u, hu, rfl⟩ := hs
      exact ⟨Reachable.step x ih.1 hu, ih.2⟩
    | inr y =>
      simp only [step2, Option.map_eq_some'] at hs
      obtain ⟨u, hu, rfl⟩ := hs
      exact ⟨ih.1, Reachable.step y ih.2 hu⟩

theorem reachable2_execFrom2 (cfgA cfgB : Config) (sched : List (Action ⊕ Action))
    (s s' : State × State) (hs : Reachable2 cfgA cfgB s)
    (h : execFrom2 cfgA cfgB s sched = some s') : Reachable2 cfgA cfgB s' := by
  induction sched generalizing s with
  | nil =>
    simp only [execFrom2, Option.some.injEq] at h
    exact h ▸ hs
  | cons a rest ih =>
    simp only [execFrom2] at h
    split at h
    · simp at h
    · rename_i s1 h1
      exact ih s1 (Reachable2.step a hs h1) h

/-- C9 (amended): each call of `FetchAllUsersInfo` starts with a semaphore of
its own, empty; a step of one call leaves the state of the other untouched;
so for two concurrent calls each has at most 5 lookups in flight and the total
is at most 10. -/
theorem per_call_pool (cfgA cfgB : Config) (s : State × State)
    (h : Reachable2 cfgA cfgB s) :
    initState.semaphore = 0 ∧
    (∀ a s', step2 cfgA cfgB s (.inl a) = some s' → s'.2 = s.2) ∧
    (∀ a s', step2 cfgA cfgB s (.inr a) = some s' → s'.1 = s.1) ∧
    inflight s.1 ≤ MaxConcurrentFetches ∧ inflight s.2 ≤ MaxConcurrentFetches ∧
    inflight s.1 + inflight s.2 ≤ 2 * MaxConcurrentFetches := by
  obtain ⟨hA, hB⟩ := reachable2_components cfgA cfgB s h
  have h1 := inv_inflight_le cfgA s.1 (reachable_inv cfgA s.1 hA)
  have h2 := inv_inflight_le cfgB s.2 (reachable_inv cfgB s.2 hB)
  refine ⟨rfl, ?_, ?_, h1, h2, by omega⟩
  · intro a s' hs
    simp only [step2, Option.map_eq_some'] at hs
    obtain ⟨u, _, rfl⟩ := hs
    rfl
  · intro a s' hs
    simp only [step2, Option.map_eq_some'] at hs
    obtain ⟨u, _, rfl⟩ := hs
    rfl

/-- Witness for C9: two concurrent calls on three identifiers each. -/
theorem per_call_pool_witness :
    inflight ((execFrom2 mixedCfg mixedCfg (initState, initState) pairSched).getD
      (initState, initState)).1 ≤ MaxConcurrentFetches ∧
    inflight ((execFrom2 mixedCfg mixedCfg (initState, initState) pairSched).getD
      (initState, initState)).2 ≤ MaxConcurrentFetches :=
  have hr : execFrom2 mixedCfg mixedCfg (initState, initState) pairSched =
      some ((execFrom2 mixedCfg mixedCfg (initState, initState) pairSched).getD
        (initState, initState)) := by decide
  have hc := per_call_pool mixedCfg mixedCfg _
    (reachable2_execFrom2 mixedCfg mixedCfg pairSched _ _ Reachable2.init hr)
  ⟨hc.2.2.2.1, hc.2.2.2.2.1⟩

/-- Counterexample to C9 as stated: two concurrent calls on three identifiers
each reach a state with six lookups in flight. -/
theorem shared_pool_counterexample :
    (execFrom2 mixedCfg mixedCfg (initState, initState) pairSched).map
      (fun s => inflight s.1 + inflight s.2) = some 6 ∧
    ¬ (∀ s, Reachable2 mixedCfg mixedCfg s →
      inflight s.1 + inflight s.2 ≤ MaxConcurrentFetches) := by
  have hr : execFrom2 mixedCfg mixedCfg (initState, initState) pairSched =
      some ((execFrom2 mixedCfg mixedCfg (initState, initState) pairSched).getD
        (initState, initState)) := by decide
  refine ⟨by decide, ?_⟩
  intro hall
  have := hall _ (reachable2_execFrom2 mixedCfg mixedCfg pairSched _ _ Reachable2.init hr)
  revert this
  decide

/-! ## The export sink -/

theorem filter_isExport_main (tr : List Event) :
    tr.filter Event.isExport = (mainEvents tr).filter Event.isExport := by
  induction tr with
  | nil => rfl
  | cons e rest ih =>
    cases e <;>
      simp [mainEvents, List.filter_cons, Event.isExport, Event.owner] <;>
      simpa [mainEvents] using ih

theorem filter_isExport_submit (l : List (Nat × Int)) :
    (l.flatMap submitEvents).filter Event.isExport = [] := by
  induction l with
  | nil => rfl
  | cons q rest ih =>
    simp only [List.flatMap_cons, List.filter_append, ih, List.append_nil]
    simp [submitEvents, List.filter_cons, Event.isExport]

theorem stepWorker_some (cfg : Config) (s s' : State) (p : Nat)
    (h : stepWorker cfg s p = some s') :
    ∃ w, s.workers[p]? = some w ∧ w.pc ≠ .exited ∧ s'.pc = s.pc := by
  simp only [stepWorker] at h
  split at h
  · simp at h
  · rename_i w hw
    refine ⟨w, hw, ?_⟩
    obtain ⟨wpos, wid, wpc⟩ := w
    cases wpc with
    | exited => simp at h
    | fetching =>
      simp only at h
      split at h <;>
      · simp only [Option.some.injEq] at h
        subst h
        simp
    | sending u =>
      simp only at h
      split at h
      · simp only [Option.some.injEq] at h
        subst h
        simp
      · split at h
        · simp only [Option.some.injEq] at h
          subst h
          simp
        · simp at h
    | releasing =>
      simp only at h
      split at h
      · simp only [Option.some.injEq] at h
        subst h
        simp
      · simp at h
    | finishing =>
      simp only at h
      split at h <;>
      · simp only [Option.some.injEq] at h
        subst h
        simp

theorem returned_last (cfg : Config) (s : State) (h : Reachable cfg s)
    (hret : s.pc = .returned) : s.trace.getLast? = some (.sendUsersToCSV s.users) := by
  induction h with
  | init => simp [initState] at hret
  | step a hr hs ih =>
    rename_i t t'
    have hI := reachable_inv cfg t hr
    unfold step at hs
    simp only [hI.noPanic, Bool.false_eq_true, if_false] at hs
    cases a with
    | main =>
      simp only at hs
      obtain ⟨pc, wg, sem, results, closed, workers, users, trace, panicked⟩ := t
      cases pc with
      | exporting =>
        simp only [stepMain, Option.some.injEq] at hs
        subst hs
        simp
      | returned => simp [stepMain] at hs
      | loop i =>
        simp only [stepMain] at hs
        split at hs <;>
        · simp only [Option.some.injEq] at hs
          subst hs
          simp at hret
      | spawn i id =>
        simp only [stepMain, Option.some.injEq] at hs
        subst hs
        simp at hret
      | acquire i id =>
        simp only [stepMain] at hs
        split at hs
        · simp only [Option.some.injEq] at hs
          subst hs
          simp at hret
        · simp at hs
      | waiting =>
        simp only [stepMain] at hs
        split at hs
        · simp only [Option.some.injEq] at hs
          subst hs
          simp at hret
        · simp at hs
      | closing =>
        simp only [stepMain] at hs
        split at hs <;>
        · simp only [Option.some.injEq] at hs
          subst hs
          simp at hret
      | collecting =>
        simp only [stepMain] at hs
        split at hs
        · simp only [Option.some.injEq] at hs
          subst hs
          simp at hret
        · split at hs
          · simp only [Option.some.injEq] at hs
            subst hs
            simp at hret
          · simp at hs
    | worker p =>
      simp only at hs
      obtain ⟨w, hw, hne, hpc⟩ := stepWorker_some cfg t t' p hs
      rw [hret] at hpc
      obtain ⟨_, _, hrun, _⟩ := returned_state cfg t hI hpc.symm
      exact absurd (all_exited _ hrun w (List.getElem?_mem hw)) hne

/-- C10 (amended): the call invokes `utils.SendUsersToCSV` exactly once, on
the collected records, as its last action before returning them; up to that
point the export sink has not been invoked. -/
theorem export_invoked_once (cfg : Config) (s : State) (h : Reachable cfg s) :
    (s.pc ≠ .returned → s.trace.filter Event.isExport = []) ∧
    (s.pc = .returned →
      s.trace.filter Event.isExport = [.sendUsersToCSV s.users] ∧
      s.trace.getLast? = some (.sendUsersToCSV s.users) ∧
      returnValue s = some s.users) := by
  have hT := reachable_traceInv cfg s h
  have hm : s.trace.filter Event.isExport = (mainExpected cfg s).filter Event.isExport := by
    rw [filter_isExport_main, hT.mainT]
  unfold mainExpected at hm
  rw [List.filter_append, filter_isExport_submit, List.nil_append] at hm
  refine ⟨?_, ?_⟩
  · intro hne
    rw [hm]
    cases hpc : s.pc with
    | returned => exact absurd hpc hne
    | _ => simp [List.filter_cons, Event.isExport]
  · intro hret
    refine ⟨?_, returned_last cfg s h hret, by simp [returnValue, hret]⟩
    rw [hm, hret]
    simp [List.filter_cons, Event.isExport]

/-- Witness for C10: the run of `mixedCfg` ends with the export of the two
returned records. -/
theorem export_invoked_once_witness :
    ((exec mixedCfg mixedSched).getD initState).trace.filter Event.isExport =
      [.sendUsersToCSV [userOf 3, userOf 1]] ∧
    returnValue ((exec mixedCfg mixedSched).getD initState) = some [userOf 3, userOf 1] :=
  have hr : exec mixedCfg mixedSched = some ((exec mixedCfg mixedSched).getD initState) := by
    decide
  have hc := (export_invoked_once mixedCfg _ (reachable_exec mixedCfg mixedSched _ hr)).2
    (by decide)
  ⟨hc.1, hc.2.2⟩

/-- Counterexample to C10 as stated: already on the empty input the call
invokes `utils.SendUsersToCSV` before it returns. -/
theorem export_counterexample :
    emptyCfg.userIDs = [] ∧
    (exec emptyCfg emptySched).map (fun s => (returnValue s, s.trace)) =
      some (some [], [.close, .sendUsersToCSV []]) ∧
    Event.sendUsersToCSV [] ∈ ((exec emptyCfg emptySched).getD initState).trace := by
  refine ⟨rfl, by decide, by decide⟩

/-! ## Decimal rendering and parsing -/

theorem digitVal_digitChar (d : Nat) (h : d < 10) : digitVal (digitChar d) = some d := by
  interval_cases d <;> rfl

theorem digitChar_ne (d : Nat) (h : d < 10) :
    digitChar d ≠ '/' ∧ digitChar d ≠ '-' ∧ digitChar d ≠ '+' := by
  interval_cases d <;> decide

theorem parseDigits_natDigits (fuel n : Nat) (acc : List Char) (h : n < fuel) :
    parseDigits 0 (natDigits fuel n acc) = parseDigits n acc := by
  induction fuel generalizing n acc with
  | zero => omega
  | succ fuel ih =>
    unfold natDigits
    split
    · rename_i hn
      simp [parseDigits, digitVal_digitChar n hn]
    · rename_i hn
      rw [ih (n / 10) _ (by omega)]
      simp only [parseDigits, digitVal_digitChar (n % 10) (Nat.mod_lt _ (by omega))]
      congr 1
      omega

theorem natDigits_mem (fuel n : Nat) (acc : List Char) :
    ∀ c ∈ natDigits fuel n acc, c ∈ acc ∨ ∃ d, d < 10 ∧ c = digitChar d := by
  induction fuel generalizing n acc with
  | zero =>
    intro c hc
    exact Or.inl hc
  | succ fuel ih =>
    intro c hc
    unfold natDigits at hc
    split at hc
    · rename_i hn
      rcases List.mem_cons.1 hc with hc | hc
      · exact Or.inr ⟨n, hn, hc⟩
      · exact Or.inl hc
    · rcases ih (n / 10) _ c hc with h1 | h1
      · rcases List.mem_cons.1 h1 with h2 | h2
        · exact Or.inr ⟨n % 10, Nat.mod_lt _ (by omega), h2⟩
        · exact Or.inl h2
      · exact Or.inr h1

theorem natDigits_ne_nil (fuel n : Nat) (acc : List Char) (h : 0 < fuel ∨ acc ≠ []) :
    natDigits fuel n acc ≠ [] := by
  induction fuel generalizing n acc with
  | zero =>
    rcases h with h | h
    · omega
    · simpa [natDigits] using h
  | succ fuel ih =>
    unfold natDigits
    split
    · simp
    · exact ih _ _ (Or.inr (by simp))

theorem parseMagnitude_natDigits (n : Nat) :
    parseMagnitude (natDigits (n + 1) n []) = some n := by
  have hne := natDigits_ne_nil (n + 1) n [] (Or.inl (by omega))
  have hp := parseDigits_natDigits (n + 1) n [] (by omega)
  cases hd : natDigits (n + 1) n [] with
  | nil => exact absurd hd hne
  | cons c r =>
    rw [hd] at hp
    simpa [parseMagnitude, parseDigits] using hp

theorem natDigits_head (n : Nat) : ∃ c r, natDigits (n + 1) n [] = c :: r ∧
    c ≠ '-' ∧ c ≠ '+' := by
  have hne := natDigits_ne_nil (n + 1) n [] (Or.inl (by omega))
  cases hd : natDigits (n + 1) n [] with
  | nil => exact absurd hd hne
  | cons c r =>
    refine ⟨c, r, rfl, ?_⟩
    have hm := natDigits_mem (n + 1) n [] c (by simp [hd])
    rcases hm with hm | ⟨d, hd10, rfl⟩
    · simp at hm
    · exact (digitChar_ne d hd10).2

/-- Parsing the decimal rendering of a Go `int` gives the integer back. -/
theorem Atoi_Itoa (n : Int) (hlo : minInt ≤ n) (hhi : n ≤ maxInt) : Atoi (Itoa n) = some n := by
  unfold Itoa
  by_cases hneg : n < 0
  · simp only [hneg, if_true, Atoi]
    simp only [if_true, parseMagnitude_natDigits, Option.some_bind, inIntRange]
    have : -((n.natAbs : Nat) : Int) = n := by omega
    rw [this]
    simp [hlo, hhi]
  · simp only [hneg, if_false, Atoi]
    obtain ⟨c, r, hd, h1, h2⟩ := natDigits_head n.natAbs
    have hp := parseMagnitude_natDigits n.natAbs
    rw [hd] at hp
    simp only [hd, h1, h2, if_false, hp, Option.some_bind, inIntRange]
    have : ((n.natAbs : Nat) : Int) = n := by omega
    rw [this]
    simp [hlo, hhi]

/-- The decimal rendering of an integer contains no slash. -/
theorem Itoa_no_slash (n : Int) : '/' ∉ (Itoa n).data := by
  have hd : ∀ m : Nat, '/' ∉ natDigits (m + 1) m [] := by
    intro m hm
    rcases natDigits_mem (m + 1) m [] _ hm with h | ⟨d, hd10, h⟩
    · simp at h
    · exact (digitChar_ne d hd10).1 h.symm
  unfold Itoa
  split
  · simp only [List.mem_cons, not_or]
    exact ⟨by decide, hd _⟩
  · exact hd _

theorem splitChars_no_sep (sep : Char) (l : List Char) (h : sep ∉ l) :
    splitChars sep l = [l] := by
  induction l with
  | nil => rfl
  | cons c cs ih =>
    simp only [List.mem_cons, not_or] at h
    have hc : c ≠ sep := fun hh => h.1 hh.symm
    simp [splitChars, hc, ih h.2]

theorem Split_users_path (part : String) (h : '/' ∉ part.data) :
    Split ("/users/" ++ part) '/' = ["", "users", part] := by
  unfold Split
  have hd : ("/users/" ++ part).data = '/' :: 'u' :: 's' :: 'e' :: 'r' :: 's' :: '/' :: part.data := by
    rw [String.data_append]
    rfl
  rw [hd]
  simp [splitChars, splitChars_no_sep '/' part.data h]

/-! ## `extractUserID` -/

/-- C15: for every Go `int` `n`, `extractUserID` on the path `/users/`
followed by `Itoa n` returns `(n, true)` and writes no response; on every path
with fewer than three parts between slashes, and on every path whose third part
is rejected by `Atoi`, it returns `(0, false)` and writes a response with
status 400. -/
theorem extractUserID_spec :
    (∀ n : Int, minInt ≤ n → n ≤ maxInt →
      extractUserID ("/users/" ++ Itoa n) = { id := n, ok := true, written := none }) ∧
    (∀ path : String, (Split path '/').length < 3 →
      (extractUserID path).id = 0 ∧ (extractUserID path).ok = false ∧
      (extractUserID path).written = some { status := 400, body := .text "Invalid URL" }) ∧
    (∀ path part : String, (Split path '/')[2]? = some part → Atoi part = none →
      (extractUserID path).id = 0 ∧ (extractUserID path).ok = false ∧
      (extractUserID path).written =
        some { status := 400, body := .text "Invalid user ID" }) := by
  refine ⟨?_, ?_, ?_⟩
  · intro n hlo hhi
    unfold extractUserID
    simp [Split_users_path (Itoa n) (Itoa_no_slash n), Atoi_Itoa n hlo hhi]
  · intro path hlen
    unfold extractUserID
    simp [hlen]
  · intro path part hpart hparse
    have hlen : ¬ (Split path '/').length < 3 := by
      have := (List.getElem?_eq_some.1 hpart).1
      omega
    unfold extractUserID
    simp [hlen, hpart, hparse]

/-- Witness for C15: the path of `TestGetUserByID`, a negative identifier, a
path that is too short and a path whose third part is not a number. -/
theorem extractUserID_spec_witness :
    extractUserID "/users/1" = { id := 1, ok := true, written := none } ∧
    extractUserID ("/users/" ++ Itoa (-7)) = { id := -7, ok := true, written := none } ∧
    (extractUserID "/users").ok = false ∧ (extractUserID "/users/abc").ok = false :=
  ⟨by decide, extractUserID_spec.1 (-7) (by decide) (by decide),
    (extractUserID_spec.2.1 "/users" (by decide)).2.1,
    (extractUserID_spec.2.2 "/users/abc" "abc" (by decide) (by decide)).2.1⟩

/-! ## The CSV export -/

theorem writeLoop_spec (env : CsvEnv) (users : List User) (k : Nat)
    (rows : List (List String)) (got : Nat) :
    (writeLoop env users k rows got).rows <+:
        rows ++ (users.filter (fun u => decide (u.Age ≥ 18))).map
          (fun u => [Itoa u.ID, env.title u.Name, Itoa u.Age, u.Email]) ∧
    ((writeLoop env users k rows got).writeErr = none →
      (writeLoop env users k rows got).rows =
          rows ++ (users.filter (fun u => decide (u.Age ≥ 18))).map
            (fun u => [Itoa u.ID, env.title u.Name, Itoa u.Age, u.Email]) ∧
        (writeLoop env users k rows got).received = got + users.length) ∧
    ((∀ j, env.writeErr j = none) → (writeLoop env users k rows got).writeErr = none) := by
  induction users generalizing k rows got with
  | nil => simp [writeLoop]
  | cons u rest ih =>
    by_cases hage : u.Age ≥ 18
    · cases hw : env.writeErr k with
      | some e =>
        simp only [writeLoop, hage, if_true, hw, List.filter_cons, decide_True, List.map_cons]
        refine ⟨List.prefix_append _ _, by simp, ?_⟩
        intro hall
        simp [hall k] at hw
      | none =>
        simp only [writeLoop, hage, if_true, hw, List.filter_cons, decide_True, List.map_cons]
        have := ih (k + 1) (rows ++ [csvRecord env.title u]) (got + 1)
        simp only [List.append_assoc, List.singleton_append, List.length_cons, csvRecord]
          at this ⊢
        refine ⟨this.1, ?_, this.2.2⟩
        intro he
        obtain ⟨h1, h2⟩ := this.2.1 he
        exact ⟨h1, by omega⟩
    · simp only [writeLoop, hage, if_false, List.filter_cons, decide_False, Bool.false_eq_true]
      have := ih k rows (got + 1)
      simp only [List.length_cons]
      refine ⟨this.1, ?_, this.2.2⟩
      intro he
      obtain ⟨h1, h2⟩ := this.2.1 he
      exact ⟨h1, by omega⟩

theorem flushAtExit_isInitial (env : CsvEnv) (rows : List (List String)) (failed : Bool) :
    flushAtExit env rows failed <+: rows := by
  unfold flushAtExit
  split
  · exact List.prefix_refl _
  · exact List.take_prefix _ _

/-- C11 (amended): when the file can be created and every write, the check of
`writer.Error()` and the final flush succeed, `ProcessAndWriteToCSV` returns
`nil`, has received the whole sequence, and the file holds the header
`[ID, Name, Age, Email]` followed by one row `[decimal ID, title-cased Name,
decimal Age, Email]` per user with `Age >= 18`, in the order received; a user
aged exactly 18 gets a row and a user under 18 gets none; the decimal fields
parse back to the numbers.  Whatever the file system does, the file holds an
initial part of those rows; when `os.Create` fails the call returns that error
and writes nothing; and whenever the call returns `nil` the writer has
accepted all of those rows. -/
theorem csv_rows_written (env : CsvEnv) (users : List User) (filename : String) :
    (env.createErr filename = none → (∀ k, env.writeErr k = none) → env.finalErr = none →
        env.flushErr = none →
      (ProcessAndWriteToCSV env users filename).file = expectedRows env.title users ∧
      (ProcessAndWriteToCSV env users filename).received = users.length ∧
      (ProcessAndWriteToCSV env users filename).err = none ∧
      (∀ u : User, u.Age = 18 →
        (ProcessAndWriteToCSV env [u] filename).file =
          [["ID", "Name", "Age", "Email"],
           [Itoa u.ID, env.title u.Name, Itoa u.Age, u.Email]]) ∧
      (∀ u : User, u.Age < 18 →
        (ProcessAndWriteToCSV env [u] filename).file = [["ID", "Name", "Age", "Email"]])) ∧
    (∀ u : User, minInt ≤ u.ID → u.ID ≤ maxInt → minInt ≤ u.Age → u.Age ≤ maxInt →
      Atoi (Itoa u.ID) = some u.ID ∧ Atoi (Itoa u.Age) = some u.Age) ∧
    (ProcessAndWriteToCSV env users filename).file <+: expectedRows env.title users ∧
    (∀ e, env.createErr filename = some e →
      (ProcessAndWriteToCSV env users filename).err = some e ∧
      (ProcessAndWriteToCSV env users filename).file = []) ∧
    ((ProcessAndWriteToCSV env users filename).err = none →
      (ProcessAndWriteToCSV env users filename).rows = expectedRows env.title users ∧
      (ProcessAndWriteToCSV env users filename).received = users.length) := by
  have hs := writeLoop_spec env users 1 [csvHeader] 0
  have healthy : ∀ us : List User, env.createErr filename = none →
      (∀ k, env.writeErr k = none) → env.finalErr = none → env.flushErr = none →
      (ProcessAndWriteToCSV env us filename).file = expectedRows env.title us ∧
      (ProcessAndWriteToCSV env us filename).received = us.length ∧
      (ProcessAndWriteToCSV env us filename).err = none := by
    intro us hc hw hf hfl
    have h1 := writeLoop_spec env us 1 [csvHeader] 0
    have h2 := h1.2.2 hw
    obtain ⟨h3, h4⟩ := h1.2.1 h2
    simp only [ProcessAndWriteToCSV, hc, hw 0, h2, hf, flushAtExit, hfl, and_self, if_true, h3,
      h4]
    simp [expectedRows, csvHeader]
  refine ⟨?_, ?_, ?_, ?_, ?_⟩
  · intro hc hw hf hfl
    obtain ⟨h1, h2, h3⟩ := healthy users hc hw hf hfl
    refine ⟨h1, h2, h3, ?_, ?_⟩
    · intro u hu
      rw [(healthy [u] hc hw hf hfl).1]
      simp [expectedRows, hu]
    · intro u hu
      rw [(healthy [u] hc hw hf hfl).1]
      have : ¬ u.Age ≥ 18 := by omega
      simp [expectedRows, this]
  · intro u h1 h2 h3 h4
    exact ⟨Atoi_Itoa u.ID h1 h2, Atoi_Itoa u.Age h3 h4⟩
  · unfold ProcessAndWriteToCSV
    cases hc : env.createErr filename with
    | some e => simp
    | none =>
      cases hw : env.writeErr 0 with
      | some e =>
        simp only
        exact (flushAtExit_isInitial env [] true).trans (by simp)
      | none =>
        have hp : (writeLoop env users 1 [csvHeader] 0).rows <+: expectedRows env.title users := by
          simpa [expectedRows, csvHeader] using hs.1
        simp only
        split
        · exact (flushAtExit_isInitial env _ true).trans hp
        · split
          · exact (flushAtExit_isInitial env _ true).trans hp
          · exact (flushAtExit_isInitial env _ false).trans hp
  · intro e he
    simp [ProcessAndWriteToCSV, he]
  · intro he
    unfold ProcessAndWriteToCSV at he ⊢
    cases hc : env.createErr filename with
    | some e => simp [hc] at he
    | none =>
      cases hw : env.writeErr 0 with
      | some e => simp [hc, hw] at he
      | none =>
        simp only [hc, hw] at he ⊢
        cases hwe : (writeLoop env users 1 [csvHeader] 0).writeErr with
        | some e => simp [hwe] at he
        | none =>
          obtain ⟨h3, h4⟩ := hs.2.1 hwe
          cases hf : env.finalErr with
          | some e => simp [hwe, hf] at he
          | none =>
            simp only [hwe, hf, h3, h4]
            simp [expectedRows, csvHeader]

/-- Witness for C11: four users, one aged 17 and one aged exactly 18 whose
name is not in title case, against a file system without failures. -/
theorem csv_rows_written_witness :
    (ProcessAndWriteToCSV okEnv csvUsers "users.csv").err = none ∧
    (ProcessAndWriteToCSV okEnv csvUsers "users.csv").file =
      [["ID", "Name", "Age", "Email"],
       ["1", "Erick Rettozi", "48", "erettozi@tolkien.com"],
       ["3", "Aragorn Elessar", "37", "aragorn@tolkien.com"],
       ["4", "Frodo Baggins", "18", "frodo@tolkien.com"]] :=
  have h := (csv_rows_written okEnv csvUsers "users.csv").1 rfl (fun _ => rfl) rfl rfl
  ⟨h.2.2.1, h.1.trans (by decide)⟩

/-- Counterexample to C11 as stated: when the directory of the file does not
exist the call returns the error of `os.Create` without receiving any user and
writes nothing, not even the header row. -/
theorem csv_create_failure_counterexample :
    (ProcessAndWriteToCSV noDirEnv csvUsers "/nonexistent/users.csv").err =
      some "no such file or directory" ∧
    (ProcessAndWriteToCSV noDirEnv csvUsers "/nonexistent/users.csv").received = 0 ∧
    (ProcessAndWriteToCSV noDirEnv csvUsers "/nonexistent/users.csv").file = [] ∧
    (ProcessAndWriteToCSV noDirEnv csvUsers "/nonexistent/users.csv").file ≠
      expectedRows noDirEnv.title [] ∧
    (ProcessAndWriteToCSV noDirEnv csvUsers "/nonexistent/users.csv").file ≠
      expectedRows noDirEnv.title csvUsers := by
  refine ⟨by decide, by decide, by decide, by decide, by decide⟩

/-- The check of `writer.Error()` at line 54 comes before the deferred flush of
line 28: on a full device the call returns `nil` although nothing has reached
the file. -/
theorem flush_failure_is_silent :
    (ProcessAndWriteToCSV fullDeviceEnv csvUsers "/dev/full").err = none ∧
    (ProcessAndWriteToCSV fullDeviceEnv csvUsers "/dev/full").file = [] := by
  refine ⟨by decide, by decide⟩

/-! ## The CRUD handlers -/

theorem wrapInt_of_range (n : Int) (hlo : minInt ≤ n) (hhi : n ≤ maxInt) : wrapInt n = n := by
  simp only [wrapInt, minInt, maxInt] at *
  omega

theorem wrapInt_range (n : Int) : minInt ≤ wrapInt n ∧ wrapInt n ≤ maxInt := by
  simp only [wrapInt, minInt, maxInt]
  omega

theorem create_effect (decode : String → Except String User) (s : Store) (body : String)
    (u : User) (hdec : decode body = .ok u) :
    (CreateUser decode s body).response =
      some { status := 201, body := .user { u with ID := s.nextID } } ∧
    (CreateUser decode s body).store.users s.nextID = some { u with ID := s.nextID } ∧
    (CreateUser decode s body).store.nextID = wrapInt (s.nextID + 1) := by
  simp [CreateUser, hdec]

theorem assignedID_handle (decode : String → Except String User) (s : Store) (r : Request)
    (id : Int) (h : assignedID r (handle decode s r) = some id) :
    id = s.nextID ∧ (handle decode s r).store.nextID = wrapInt (s.nextID + 1) := by
  cases r with
  | create body =>
    simp only [handle, CreateUser] at h ⊢
    cases hd : decode body with
    | error e => simp [hd, assignedID] at h
    | ok u =>
      simp only [hd, assignedID, if_true, Option.some.injEq] at h ⊢
      exact ⟨h.symm, trivial⟩
  | update path body => simp [assignedID] at h
  | delete path => simp [assignedID] at h

theorem handle_nextID_of_none (decode : String → Except String User) (s : Store) (r : Request)
    (h : assignedID r (handle decode s r) = none) :
    (handle decode s r).store.nextID = s.nextID := by
  cases r with
  | create body =>
    simp only [handle, CreateUser] at h ⊢
    cases hd : decode body with
    | error e => rfl
    | ok u => simp [hd, assignedID] at h
  | update path body =>
    simp only [handle, UpdateUser]
    split
    · rfl
    · cases decode body with
      | error e => rfl
      | ok u => cases s.users (extractUserID path).id <;> rfl
  | delete path =>
    simp only [handle, DeleteUser]
    split
    · rfl
    · cases s.users (extractUserID path).id <;> rfl

theorem handle_keys_lt (decode : String → Except String User) (s : Store) (r : Request)
    (hs : ∀ k, s.users k ≠ none → k < s.nextID)
    (hnext : s.nextID ≤ (handle decode s r).store.nextID)
    (hcreate : ∀ id, assignedID r (handle decode s r) = some id →
      s.nextID < (handle decode s r).store.nextID) :
    ∀ k, (handle decode s r).store.users k ≠ none → k < (handle decode s r).store.nextID := by
  cases r with
  | create body =>
    simp only [handle, CreateUser] at hnext hcreate ⊢
    cases hd : decode body with
    | error e => simpa using hs
    | ok u =>
      simp only [hd, assignedID, if_true, Option.some.injEq, forall_eq'] at hcreate
      intro k hk
      simp only [Function.update_apply] at hk
      by_cases hkn : k = s.nextID
      · rw [hkn]
        exact hcreate
      · simp only [hkn, if_false] at hk
        exact lt_trans (hs k hk) hcreate
  | update path body =>
    simp only [handle, UpdateUser]
    split
    · simpa using hs
    · cases decode body with
      | error e => simpa using hs
      | ok u =>
        cases ho : s.users (extractUserID path).id with
        | none => simpa using hs
        | some old =>
          intro k hk
          simp only [Function.update_apply] at hk
          by_cases hkn : k = (extractUserID path).id
          · subst hkn
            exact hs _ (by simp [ho])
          · simp only [hkn, if_false] at hk
            exact hs k hk
  | delete path =>
    simp only [handle, DeleteUser]
    split
    · simpa using hs
    · cases ho : s.users (extractUserID path).id with
      | none => simpa using hs
      | some old =>
        intro k hk
        simp only [Function.update_apply] at hk
        by_cases hkn : k = (extractUserID path).id
        · simp [hkn] at hk
        · simp only [hkn, if_false] at hk
          exact hs k hk

/-- As long as the counter does not pass `maxInt`, it is the counter at the
start plus the number of identifiers assigned, and every key of the map is
below it. -/
theorem serveAll_no_wrap (decode : String → Except String User) (s : Store)
    (reqs : List Request) (hlo : minInt ≤ s.nextID)
    (hhi : s.nextID + ((assignedIDs decode s reqs).length : Int) ≤ maxInt)
    (hs : ∀ k, s.users k ≠ none → k < s.nextID) :
    (serveAll decode s reqs).nextID = s.nextID + ((assignedIDs decode s reqs).length : Int) ∧
    ∀ k, (serveAll decode s reqs).users k ≠ none → k < (serveAll decode s reqs).nextID := by
  induction reqs generalizing s with
  | nil => simpa [serveAll, assignedIDs] using hs
  | cons r rs ih =>
    simp only [serveAll, assignedIDs] at hhi ⊢
    cases ha : assignedID r (handle decode s r) with
    | none =>
      have hn := handle_nextID_of_none decode s r ha
      simp only [ha] at hhi ⊢
      have hk := handle_keys_lt decode s r hs (by omega) (by simp [ha])
      have := ih (handle decode s r).store (by omega) (by omega) hk
      rw [hn] at this
      exact this
    | some id0 =>
      obtain ⟨_, h2⟩ := assignedID_handle decode s r id0 ha
      simp only [ha, List.length_cons, Nat.cast_add, Nat.cast_one] at hhi ⊢
      have hw : wrapInt (s.nextID + 1) = s.nextID + 1 :=
        wrapInt_of_range _ (by omega) (by omega)
      rw [hw] at h2
      have hk := handle_keys_lt decode s r hs (by omega) (by intro _ _; omega)
      have := ih (handle decode s r).store (by omega) (by omega) hk
      rw [h2] at this
      refine ⟨by omega, ?_⟩
      have h3 := this.2
      rw [this.1] at h3
      intro k hk'
      have := h3 k hk'
      omega

/-- As long as the last identifier assigned does not pass `maxInt`, the
identifiers assigned are strictly increasing from the counter at the start. -/
theorem assignedIDs_bounds (decode : String → Except String User) (s : Store)
    (reqs : List Request) (hlo : minInt ≤ s.nextID)
    (hhi : s.nextID + ((assignedIDs decode s reqs).length : Int) ≤ maxInt + 1) :
    (∀ id ∈ assignedIDs decode s reqs,
      s.nextID ≤ id ∧ id < s.nextID + ((assignedIDs decode s reqs).length : Int)) ∧
    (assignedIDs decode s reqs).Pairwise (fun a b => a < b) := by
  induction reqs generalizing s with
  | nil => simp [assignedIDs]
  | cons r rs ih =>
    simp only [assignedIDs] at hhi ⊢
    cases ha : assignedID r (handle decode s r) with
    | none =>
      have hn := handle_nextID_of_none decode s r ha
      simp only [ha] at hhi ⊢
      have := ih (handle decode s r).store (by omega) (by omega)
      rw [hn] at this
      exact this
    | some id0 =>
      obtain ⟨h1, h2⟩ := assignedID_handle decode s r id0 ha
      simp only [ha, List.length_cons, Nat.cast_add, Nat.cast_one] at hhi ⊢
      by_cases hrest : assignedIDs decode (handle decode s r).store rs = []
      · simp only [hrest, List.length_nil, Nat.cast_zero, List.mem_singleton, forall_eq,
          List.pairwise_cons, List.not_mem_nil, false_implies, implies_true,
          List.Pairwise.nil, and_self, and_true]
        omega
      · have hpos : 0 < (assignedIDs decode (handle decode s r).store rs).length :=
          List.length_pos.2 hrest
        have hw : wrapInt (s.nextID + 1) = s.nextID + 1 :=
          wrapInt_of_range _ (by omega) (by omega)
        rw [hw] at h2
        obtain ⟨ih1, ih2⟩ := ih (handle decode s r).store (by omega) (by omega)
        rw [h2] at ih1
        refine ⟨?_, ?_⟩
        · intro id hid
          rcases List.mem_cons.1 hid with hid | hid
          · subst hid
            omega
          · have := ih1 id hid
            omega
        · rw [List.pairwise_cons]
          refine ⟨?_, ih2⟩
          intro b hb
          have := ih1 b hb
          omega

theorem serveAll_append (decode : String → Except String User) (s : Store)
    (xs ys : List Request) :
    serveAll decode s (xs ++ ys) = serveAll decode (serveAll decode s xs) ys := by
  induction xs generalizing s with
  | nil => rfl
  | cons r rs ih =>
    rw [List.cons_append]
    simp only [serveAll]
    exact ih _

theorem assignedIDs_append (decode : String → Except String User) (s : Store)
    (xs ys : List Request) :
    assignedIDs decode s (xs ++ ys) =
      assignedIDs decode s xs ++ assignedIDs decode (serveAll decode s xs) ys := by
  induction xs generalizing s with
  | nil => rfl
  | cons r rs ih =>
    rw [List.cons_append]
    simp only [assignedIDs, serveAll]
    cases assignedID r (handle decode s r) <;> simp [ih]

theorem assignedIDs_create (decode : String → Except String User) (s : Store) (body : String)
    (u : User) (hdec : decode body = .ok u) (rest : List Request) :
    assignedIDs decode s (.create body :: rest) =
      s.nextID :: assignedIDs decode (CreateUser decode s body).store rest := by
  simp [assignedIDs, handle, CreateUser, hdec, assignedID]

/-- C12 (amended): after any sequence of `CreateUser`, `UpdateUser` and
`DeleteUser` calls on the initial store in which fewer than 2^63 - 1
identifiers have been assigned, a `CreateUser` with a decodable payload answers
201 with the payload's name, age and email under the identifier `nextID`,
whatever identifier the payload carried, and stores that user under that key;
the key was free, every identifier assigned before is strictly smaller, and
the identifiers assigned over the whole sequence are strictly increasing, hence
pairwise distinct and never reused. -/
theorem create_assigns_fresh_id (decode : String → Except String User)
    (reqs : List Request) (body : String) (u : User) (hdec : decode body = .ok u)
    (hbound : ((assignedIDs decode initStore reqs).length : Int) < maxInt) :
    (CreateUser decode (serveAll decode initStore reqs) body).response =
      some { status := 201,
             body := .user { u with ID := (serveAll decode initStore reqs).nextID } } ∧
    (CreateUser decode (serveAll decode initStore reqs) body).store.users
        (serveAll decode initStore reqs).nextID =
      some { u with ID := (serveAll decode initStore reqs).nextID } ∧
    (serveAll decode initStore reqs).users (serveAll decode initStore reqs).nextID = none ∧
    (serveAll decode initStore reqs).nextID =
      1 + ((assignedIDs decode initStore reqs).length : Int) ∧
    (∀ id ∈ assignedIDs decode initStore reqs, id < (serveAll decode initStore reqs).nextID) ∧
    assignedIDs decode initStore (reqs ++ [.create body]) =
      assignedIDs decode initStore reqs ++ [(serveAll decode initStore reqs).nextID] ∧
    (assignedIDs decode initStore (reqs ++ [.create body])).Pairwise (fun a b => a < b) ∧
    (assignedIDs decode initStore (reqs ++ [.create body])).Nodup := by
  have hinit : initStore.nextID = 1 := rfl
  have hlo : minInt ≤ initStore.nextID := by decide
  obtain ⟨hnext, hkeys⟩ := serveAll_no_wrap decode initStore reqs hlo
    (by rw [hinit]; omega) (by simp [initStore])
  rw [hinit] at hnext
  have hb := assignedIDs_bounds decode initStore reqs hlo (by rw [hinit]; omega)
  have happ : assignedIDs decode initStore (reqs ++ [.create body]) =
      assignedIDs decode initStore reqs ++ [(serveAll decode initStore reqs).nextID] := by
    rw [assignedIDs_append, assignedIDs_create decode _ body u hdec]
    rfl
  have hp := (assignedIDs_bounds decode initStore (reqs ++ [.create body]) hlo
    (by rw [happ, hinit]; simp only [List.length_append, List.length_singleton,
      Nat.cast_add, Nat.cast_one]; omega)).2
  obtain ⟨hc1, hc2, _⟩ := create_effect decode (serveAll decode initStore reqs) body u hdec
  refine ⟨hc1, hc2, ?_, hnext, ?_, happ, hp, hp.imp (fun h => ne_of_lt h)⟩
  · by_contra hne
    have := hkeys _ hne
    omega
  · intro id hid
    have := (hb.1 id hid).2
    rw [hinit] at this
    omega

/-- Witness for C12: create, delete that user, create again; the second user
gets the identifier 2, not the freed 1 and not the 99 of its payload. -/
theorem create_assigns_fresh_id_witness :
    assignedIDs demoDecode initStore
      [.create "aragorn", .delete "/users/1", .create "aragorn"] = [1, 2] ∧
    (CreateUser demoDecode
      (serveAll demoDecode initStore [.create "aragorn", .delete "/users/1"])
      "aragorn").response =
      some { status := 201,
             body := .user { ID := 2, Name := "Aragorn Elessar", Age := 37,
                             Email := "aragorn@tolkien.com" } } :=
  ⟨by decide,
    (create_assigns_fresh_id demoDecode [.create "aragorn", .delete "/users/1"] "aragorn"
      _ rfl (by decide)).1.trans (by decide)⟩

theorem serveAll_creates (decode : String → Except String User) (body : String) (u : User)
    (hdec : decode body = .ok u) (n : Nat) :
    ∀ s : Store, minInt ≤ s.nextID → s.nextID + (n : Int) ≤ maxInt →
      (serveAll decode s (List.replicate n (.create body))).nextID = s.nextID + (n : Int) := by
  induction n with
  | zero =>
    intro s _ _
    simp [serveAll]
  | succ n ih =>
    intro s hlo hhi
    rw [List.replicate_succ]
    simp only [serveAll, handle]
    have hc := (create_effect decode s body u hdec).2.2
    have hw : wrapInt (s.nextID + 1) = s.nextID + 1 :=
      wrapInt_of_range _ (by omega) (by push_cast at hhi; omega)
    rw [hw] at hc
    rw [ih _ (by omega) (by push_cast at hhi; omega), hc]
    push_cast
    omega

/-- Counterexample to C12 as stated: after 2^63 - 1 creations the counter has
wrapped, and the next `CreateUser` is answered 201 with the identifier -2^63,
which is smaller than the identifier 1 assigned to the first user. -/
theorem wrapped_id_counterexample :
    (CreateUser demoDecode
      (serveAll demoDecode initStore
        (List.replicate (9223372036854775806 + 1) (.create "aragorn")))
      "aragorn").response =
      some { status := 201,
             body := .user { ID := -9223372036854775808, Name := "Aragorn Elessar",
                             Age := 37, Email := "aragorn@tolkien.com" } } ∧
    (1 : Int) ∈ assignedIDs demoDecode initStore
      (List.replicate (9223372036854775806 + 1) (.create "aragorn")) ∧
    ¬ ((1 : Int) < -9223372036854775808) := by
  have hdec : demoDecode "aragorn" =
      .ok { ID := 99, Name := "Aragorn Elessar", Age := 37, Email := "aragorn@tolkien.com" } :=
    rfl
  have hlast : (serveAll demoDecode initStore
      (List.replicate (9223372036854775806 + 1) (.create "aragorn"))).nextID =
        -9223372036854775808 := by
    rw [List.replicate_succ', serveAll_append]
    have h1 := serveAll_creates demoDecode "aragorn" _ hdec 9223372036854775806 initStore
      (by decide) (by decide)
    have h2 := (create_effect demoDecode
      (serveAll demoDecode initStore (List.replicate 9223372036854775806 (.create "aragorn")))
      "aragorn" _ hdec).2.2
    show (handle demoDecode _ (.create "aragorn")).store.nextID = _
    rw [show handle demoDecode
        (serveAll demoDecode initStore
          (List.replicate 9223372036854775806 (.create "aragorn")))
        (.create "aragorn") =
      CreateUser demoDecode
        (serveAll demoDecode initStore
          (List.replicate 9223372036854775806 (.create "aragorn"))) "aragorn" from rfl,
      h2, h1]
    decide
  refine ⟨?_, ?_, by decide⟩
  · rw [(create_effect demoDecode _ "aragorn" _ hdec).1, hlast]
  · rw [List.replicate_succ, assignedIDs_create demoDecode initStore "aragorn" _ hdec]
    exact List.mem_cons_self _ _

/-- C13: for a path that yields the identifier `id`, a store holding a user
under `id` and a decodable payload, `UpdateUser` answers 200 with the stored
user whose name, age and email are replaced by the payload's and whose `ID`
field is the one it had; that user is stored under `id`, every other key of the
map keeps its entry, and `nextID` is unchanged. -/
theorem update_user_frame (decode : String → Except String User) (s : Store)
    (path body : String) (id : Int) (old u : User)
    (hok : (extractUserID path).ok = true) (hid : (extractUserID path).id = id)
    (hold : s.users id = some old) (hdec : decode body = .ok u) :
    (UpdateUser decode s path body).response =
      some { status := 200,
             body := .user { old with Name := u.Name, Age := u.Age, Email := u.Email } } ∧
    (UpdateUser decode s path body).store.users id =
      some { old with Name := u.Name, Age := u.Age, Email := u.Email } ∧
    ({ old with Name := u.Name, Age := u.Age, Email := u.Email } : User).ID = old.ID ∧
    (∀ k, k ≠ id → (UpdateUser decode s path body).store.users k = s.users k) ∧
    (UpdateUser decode s path body).store.nextID = s.nextID := by
  subst hid
  refine ⟨?_, ?_, rfl, ?_, ?_⟩
  · simp [UpdateUser, hok, hdec, hold]
  · simp [UpdateUser, hok, hdec, hold]
  · intro k hk
    simp [UpdateUser, hok, hdec, hold, Function.update_apply, hk]
  · simp [UpdateUser, hok, hdec, hold]

/-- Witness for C13: the scenario of `TestUpdateUser`, with a payload that
carries the identifier 99. -/
theorem update_user_frame_witness :
    (UpdateUser demoDecode oneUserStore "/users/1" "aragorn").response =
      some { status := 200,
             body := .user { ID := 1, Name := "Aragorn Elessar", Age := 37,
                             Email := "aragorn@tolkien.com" } } ∧
    (UpdateUser demoDecode oneUserStore "/users/1" "aragorn").store.nextID = 2 :=
  have h := update_user_frame demoDecode oneUserStore "/users/1" "aragorn" 1
    { ID := 1, Name := "Erick Rettozi", Age := 48, Email := "erettozi@tolkien.com" }
    { ID := 99, Name := "Aragorn Elessar", Age := 37, Email := "aragorn@tolkien.com" }
    (by decide) (by decide) (by decide) rfl
  ⟨h.1, h.2.2.2.2⟩

/-- C14: for a path that yields the identifier `id`: if the map has an entry
under `id`, `DeleteUser` answers 204, afterwards `id` has no entry and every
other key keeps its entry; if it has none, `DeleteUser` answers 404 and the map
is unchanged. -/
theorem delete_user_spec (s : Store) (path : String) (id : Int)
    (hok : (extractUserID path).ok = true) (hid : (extractUserID path).id = id) :
    (∀ old, s.users id = some old →
      (DeleteUser s path).response = some { status := 204, body := .empty } ∧
      (DeleteUser s path).store.users id = none ∧
      (∀ k, k ≠ id → (DeleteUser s path).store.users k = s.users k)) ∧
    (s.users id = none →
      (DeleteUser s path).response =
        some { status := 404, body := .text "User not found" } ∧
      (DeleteUser s path).store.users = s.users) := by
  subst hid
  refine ⟨?_, ?_⟩
  · intro old hold
    refine ⟨?_, ?_, ?_⟩
    · simp [DeleteUser, hok, hold]
    · simp [DeleteUser, hok, hold]
    · intro k hk
      simp [DeleteUser, hok, hold, Function.update_apply, hk]
  · intro hnone
    simp [DeleteUser, hok, hnone]

/-- Witness for C14: the scenario of `TestDeleteUser`, and the deletion of an
identifier the store does not hold. -/
theorem delete_user_spec_witness :
    (DeleteUser oneUserStore "/users/1").response = some { status := 204, body := .empty } ∧
    (DeleteUser oneUserStore "/users/1").store.users 1 = none ∧
    (DeleteUser oneUserStore "/users/5").response =
      some { status := 404, body := .text "User not found" } :=
  have h1 := (delete_user_spec oneUserStore "/users/1" 1 (by decide) (by decide)).1
    { ID := 1, Name := "Erick Rettozi", Age := 48, Email := "erettozi@tolkien.com" }
    (by decide)
  have h5 := (delete_user_spec oneUserStore "/users/5" 5 (by decide) (by decide)).2
    (by decide)
  ⟨h1.1, h1.2.1, h5.1⟩

/-! ## Absence of deadlock -/

theorem sentBy_length_le (cfg : Config) (s : State) (h : Reachable cfg s) (p : Nat) :
    (sentBy p s.trace).length ≤ 1 := by
  cases hw : s.workers[p]? with
  | none =>
    have h1 := (reachable_traceInv cfg s h).own p
    simp only [hw] at h1
    rw [sentBy_owned, h1]
    simp [sentBy]
  | some w =>
    rw [worker_sent cfg s h p w hw]
    split
    · simp
    · cases lookupRecord cfg p w.id <;> simp

theorem send_enabled (cfg : Config) (s : State) (hI : Inv cfg s) (p : Nat) (w : Worker)
    (u : User) (hw : s.workers[p]? = some w) (hpc : w.pc = .sending u) :
    s.results.length < cfg.userIDs.length ∧
    ∃ s', step cfg s (.worker p) = some s' ∧ s'.results = s.results ++ [u] := by
  obtain ⟨l1, l2, e, _, _⟩ := split_at s.workers p w hw
  obtain ⟨wpos, wid, wpc⟩ := w
  simp only at hpc
  subst hpc
  have hrun : 0 < s.workers.countP Worker.running := by
    rw [e]
    exact countP_running_pos l1 l2 _ rfl
  have hb : 0 < s.workers.countP Worker.beforeSend := by
    rw [e]
    simp [List.countP_append, List.countP_cons, Worker.beforeSend]
  obtain ⟨hc, _⟩ := inv_open_of_running cfg s hI hrun
  have hlt := inv_results_lt cfg s hI hb
  refine ⟨hlt, ?_⟩
  simp only [step, hI.noPanic, Bool.false_eq_true, if_false, stepWorker, hw, hc, hlt, if_true]
  exact ⟨_, rfl, rfl⟩

/-- C16: in every reachable state the result channel holds at most `len(ids)`
records and every worker has sent at most once; a worker standing at its send
finds room in the channel and its send is enabled; every launched worker that
has not exited can take a step; every state that has not returned has an
enabled step; at `wg.Wait()` either the counter is zero or some worker can take
a step; and no reachable state has panicked. -/
theorem never_stuck (cfg : Config) (s : State) (h : Reachable cfg s) :
    s.results.length ≤ cfg.userIDs.length ∧
    (∀ p, (sentBy p s.trace).length ≤ 1) ∧
    (∀ p w u, s.workers[p]? = some w → w.pc = .sending u →
      s.results.length < cfg.userIDs.length ∧
      ∃ s', step cfg s (.worker p) = some s' ∧ s'.results = s.results ++ [u]) ∧
    (∀ p w, s.workers[p]? = some w → w.pc ≠ .exited →
      ∃ s', step cfg s (.worker p) = some s') ∧
    (s.pc ≠ .returned → ∃ a s', step cfg s a = some s') ∧
    (s.pc = .waiting → s.wg ≠ 0 → ∃ p s', step cfg s (.worker p) = some s') ∧
    s.panicked = false := by
  have hI := reachable_inv cfg s h
  refine ⟨inv_results_le cfg s hI, sentBy_length_le cfg s h, ?_, ?_, inv_progress cfg s hI, ?_,
    hI.noPanic⟩
  · intro p w u hw hpc
    exact send_enabled cfg s hI p w u hw hpc
  · intro p w hw hne
    exact worker_enabled cfg s p w hI hw hne
  · intro hpc hwg
    have h2 := hI.wgEq
    simp only [hpc, MainPC.pendingAdd, Nat.add_zero] at h2
    obtain ⟨p, w, hw, hf⟩ := exists_of_countP_pos Worker.running s.workers (by omega)
    have hne : w.pc ≠ .exited := by
      intro hh
      simp [Worker.running, hh] at hf
    obtain ⟨s', hs'⟩ := worker_enabled cfg s p w hI hw hne
    exact ⟨p, s', hs'⟩

/-- Witness for C16: with six identifiers and five workers in flight the main
thread is blocked at the sixth acquire, and the first worker can take a step. -/
theorem never_stuck_witness :
    step sixCfg ((exec sixCfg sixSched).getD initState) .main = none ∧
    ∃ s', step sixCfg ((exec sixCfg sixSched).getD initState) (.worker 0) = some s' :=
  have hr : exec sixCfg sixSched = some ((exec sixCfg sixSched).getD initState) := by decide
  ⟨by decide,
    (never_stuck sixCfg _ (reachable_exec sixCfg sixSched _ hr)).2.2.2.1 0 ⟨0, 1, .fetching⟩
      (by decide) (by decide)⟩

end UserService
